import Mathlib

/-!
Verification of the TicTacToe core: the Game state machine (src/js/game.js)
and the AI decision engine (the AI module of the repository).  Boards are the
9-cell arrays of the JavaScript source; cells hold '' (empty), 'X' or 'O'.
JavaScript `Math.random()`-driven choices are modelled by an extra natural
number parameter `r`: the source picks
`list[Math.floor(Math.random()*list.length)]`, an arbitrary in-range index,
modelled as `list.getD (r % list.length) 0`.

The development has three layers:
- source-faithful definitions (`Game`, `AI` namespaces), used in every
  claim statement;
- an unpruned minimax (`AI.npMinimax`, the spec's "full search without
  pruning") and a game-semantic predicate `AI.noLoss` ("this mark can
  force at least a draw"), both related to the pruned search by theorems;
- a bitmask engine (`Fast` namespace) proven equal to `AI.minimax`, used
  only to evaluate concrete positions efficiently inside proofs.
-/

/-- A cell value: `''` (EMPTY), `'X'` (PLAYER_X) or `'O'` (PLAYER_O). -/
inductive Cell
  | E
  | X
  | O
deriving DecidableEq, Repr

/-- The 9-cell board array (row-major indices 0-8). -/
abbrev Board := List Cell

/-- Array read `board[i]`.  All boards the source builds have length 9 and
are read at indices 0-8, where `getD` is exact array indexing. -/
def cellG (b : Board) (i : Nat) : Cell := b.getD i Cell.E

/-- The 8 fixed winning triples, in the source's order: rows, columns,
diagonals (`WINNING_COMBINATIONS`, defined identically in game.js and in
the AI module). -/
def WINNING_COMBINATIONS : List (List Nat) :=
  [[0, 1, 2], [3, 4, 5], [6, 7, 8],
   [0, 3, 6], [1, 4, 7], [2, 5, 8],
   [0, 4, 8], [2, 4, 6]]

/-- One iteration's test of the winner scan: a combination `[a, b, c]` wins
when `board[a] !== EMPTY && board[a] === board[b] && board[a] === board[c]`;
the winning mark is `board[a]`. -/
def tripleWin (b : Board) (combo : List Nat) : Option Cell :=
  match combo with
  | [x, y, z] =>
      if cellG b x ≠ Cell.E ∧ cellG b x = cellG b y ∧ cellG b x = cellG b z then
        some (cellG b x)
      else none
  | _ => none

/-- The `for (const combo of WINNING_COMBINATIONS)` scan shared by
`Game.checkGameEnd` and `AI.checkWinner`: the first matching triple,
with its mark. -/
def scanCombos (b : Board) : List (List Nat) → Option (Cell × List Nat)
  | [] => none
  | c :: rest =>
    match tripleWin b c with
    | some m => some (m, c)
    | none => scanCombos b rest

namespace AI

/-- Function `checkWinner` of the AI module: the first matching triple's
mark, or null. -/
def checkWinner (b : Board) : Option Cell :=
  (scanCombos b WINNING_COMBINATIONS).map Prod.fst

/-- Function `isBoardFull`: `board.every(cell => cell !== EMPTY)`. -/
def isBoardFull (b : Board) : Bool :=
  b.all (fun cell => cell != Cell.E)

/-- Function `getEmptyCells`: indices `0 ≤ i < board.length` with
`board[i] === EMPTY`, in increasing order. -/
def getEmptyCells (b : Board) : List Nat :=
  (List.range b.length).filter (fun i => cellG b i == Cell.E)

/-- A JavaScript number as the search uses it: an integer score or one of
the infinities `-Infinity` / `Infinity` used as initial bounds. -/
inductive XInt
  | negInf
  | fin (n : Int)
  | posInf
deriving DecidableEq, Repr

/-- Comparison `a <= b` on scores and infinities. -/
def xleb : XInt → XInt → Bool
  | .negInf, _ => true
  | .fin _, .negInf => false
  | .fin n, .fin m => decide (n ≤ m)
  | .fin _, .posInf => true
  | .posInf, .posInf => true
  | .posInf, .negInf => false
  | .posInf, .fin _ => false

/-- Comparison `a < b` on scores and infinities. -/
def xltb : XInt → XInt → Bool
  | .negInf, .negInf => false
  | .negInf, _ => true
  | .fin _, .negInf => false
  | .fin n, .fin m => decide (n < m)
  | .fin _, .posInf => true
  | .posInf, _ => false

/-- JavaScript `Math.max` on scores and infinities. -/
def xmax (a b : XInt) : XInt := if xleb a b then b else a

/-- JavaScript `Math.min` on scores and infinities. -/
def xmin (a b : XInt) : XInt := if xleb a b then a else b

/-- The maximizing branch's `for (const index of emptyCells)` loop of
`minimax`: try `board[index] = PLAYER_O`, score the recursive call (the
undo `board[index] = EMPTY` makes the recursion operate on the board with
only that one cell changed, rendered here by passing `b.set i O` by value),
fold `Math.max` into `bestScore` and `alpha`, and break once
`beta <= alpha`.  `rec` is the recursive `minimax` call at the next depth
taking the current `alpha`; `beta` is fixed in this node. -/
def maxLoop (rec : Board → XInt → XInt) (b : Board) (beta : XInt) :
    List Nat → XInt → XInt → XInt
  | [], best, _ => best
  | i :: rest, best, alpha =>
    let score := rec (b.set i Cell.O) alpha
    let best' := xmax score best
    let alpha' := xmax alpha score
    if xleb beta alpha' then best' else maxLoop rec b beta rest best' alpha'

/-- The minimizing branch's loop: place `PLAYER_X`, fold `Math.min` into
`bestScore` and `beta`, break once `beta <= alpha`; `alpha` is fixed. -/
def minLoop (rec : Board → XInt → XInt) (b : Board) (alpha : XInt) :
    List Nat → XInt → XInt → XInt
  | [], best, _ => best
  | i :: rest, best, beta =>
    let score := rec (b.set i Cell.X) beta
    let best' := xmin score best
    let beta' := xmin beta score
    if xleb beta' alpha then best' else minLoop rec b alpha rest best' beta'

/-- Terminal-position evaluation of `minimax`, the fuel-exhausted cutoff:
the winner scores of the source, drawing when nothing is decided. -/
def mmZero : Board → Nat → Bool → XInt → XInt → XInt :=
  fun board depth _ _ _ =>
    match checkWinner board with
    | some Cell.O => .fin (10 - (depth : Int))
    | some Cell.X => .fin (-10 + (depth : Int))
    | _ => .fin 0

/-- The body of `minimax(board, depth, isMaximizing, alpha, beta)`, with
`rec` standing for the recursive call: check terminal states, then run the
maximizing or minimizing loop over the empty cells. -/
def mmStep (rec : Board → Nat → Bool → XInt → XInt → XInt) :
    Board → Nat → Bool → XInt → XInt → XInt :=
  fun board depth isMaximizing alpha beta =>
    match checkWinner board with
    | some Cell.O => .fin (10 - (depth : Int))
    | some Cell.X => .fin (-10 + (depth : Int))
    | _ =>
      if isBoardFull board then .fin 0
      else if isMaximizing then
        maxLoop (fun b' a' => rec b' (depth + 1) false a' beta)
          board beta (getEmptyCells board) .negInf alpha
      else
        minLoop (fun b' bt' => rec b' (depth + 1) true alpha bt')
          board alpha (getEmptyCells board) .posInf beta

/-- Function `minimax` itself: `fuel` bounds the recursion depth.  The
source recursion terminates because every call fills one empty cell, and
every use below passes `fuel ≥` the number of empty cells, so the cutoff
`mmZero` is only ever reached on terminal boards, where it agrees with
the source's terminal returns. -/
def minimax (fuel : Nat) : Board → Nat → Bool → XInt → XInt → XInt :=
  Nat.rec mmZero (fun _ ih => mmStep ih) fuel

/-- The root loop of `findBestMove`: score each empty cell with
`minimax(boardCopy, 0, false, -Infinity, Infinity)` after placing
`PLAYER_O` there, keeping the first strict improvement
(`score > bestScore`). -/
def bestLoop (b : Board) : List Nat → XInt → Option Nat → XInt × Option Nat
  | [], best, mv => (best, mv)
  | i :: rest, best, mv =>
    let score := minimax 9 (b.set i Cell.O) 0 false .negInf .posInf
    if xltb best score then bestLoop b rest score (some i)
    else bestLoop b rest best mv

/-- Function `findBestMove(board)`: null when no empty cell; random
center/corner on a fully empty board; random corner when 8 cells are empty
and the center is taken; otherwise the minimax root loop.  `r` models
`Math.random()`'s pick. -/
def findBestMove (r : Nat) (board : Board) : Option Nat :=
  let boardCopy := board
  let emptyCells := getEmptyCells boardCopy
  if emptyCells.length = 0 then none
  else if emptyCells.length = 9 then
    some (List.getD [0, 2, 4, 6, 8] (r % 5) 0)
  else if emptyCells.length = 8 ∧ cellG boardCopy 4 ≠ Cell.E then
    some (List.getD [0, 2, 6, 8] (r % 4) 0)
  else (bestLoop boardCopy emptyCells .negInf none).2

/-- Function `findRandomMove(board)`: null when no empty cell, else a
random empty cell (`r` models the random pick). -/
def findRandomMove (r : Nat) (board : Board) : Option Nat :=
  let emptyCells := getEmptyCells board
  if emptyCells.length = 0 then none
  else some (emptyCells.getD (r % emptyCells.length) 0)

/-- Function `getMoveWithDifficultyAndDelay(board, delay, difficulty)`
minus the promise and the presentation delay: `'easy'` picks the random
move, anything else the minimax move.  The source signature has no symbol
parameter. -/
def getMoveWithDifficultyAndDelay (r : Nat) (board : Board)
    (difficulty : String) : Option Nat :=
  if difficulty = "easy" then findRandomMove r board else findBestMove r board

/-! Unpruned minimax: the same search without `alpha`, `beta` or the break,
the spec's "unpruned full search" that the pruned one must match. -/

/-- Maximizing loop of the unpruned search: fold `Math.max` over every
child, never breaking. -/
def npMaxLoop (rec : Board → XInt) (b : Board) : List Nat → XInt → XInt
  | [], best => best
  | i :: rest, best => npMaxLoop rec b rest (xmax (rec (b.set i Cell.O)) best)

/-- Minimizing loop of the unpruned search. -/
def npMinLoop (rec : Board → XInt) (b : Board) : List Nat → XInt → XInt
  | [], best => best
  | i :: rest, best => npMinLoop rec b rest (xmin (rec (b.set i Cell.X)) best)

/-- Terminal-position evaluation of the unpruned search (agrees with
`mmZero`). -/
def npZero : Board → Nat → Bool → XInt :=
  fun board depth _ =>
    match checkWinner board with
    | some Cell.O => .fin (10 - (depth : Int))
    | some Cell.X => .fin (-10 + (depth : Int))
    | _ => .fin 0

/-- The body of the unpruned `minimax`: identical terminal scoring, full
fold over children. -/
def npStep (rec : Board → Nat → Bool → XInt) : Board → Nat → Bool → XInt :=
  fun board depth isMaximizing =>
    match checkWinner board with
    | some Cell.O => .fin (10 - (depth : Int))
    | some Cell.X => .fin (-10 + (depth : Int))
    | _ =>
      if isBoardFull board then .fin 0
      else if isMaximizing then
        npMaxLoop (fun b' => rec b' (depth + 1) false)
          board (getEmptyCells board) .negInf
      else
        npMinLoop (fun b' => rec b' (depth + 1) true)
          board (getEmptyCells board) .posInf

/-- The unpruned full search. -/
def npMinimax (fuel : Nat) : Board → Nat → Bool → XInt :=
  Nat.rec npZero (fun _ ih => npStep ih) fuel

/-- Root loop of the unpruned engine, with the identical
`score > bestScore` tie-breaking. -/
def npBestLoop (b : Board) : List Nat → XInt → Option Nat → XInt × Option Nat
  | [], best, mv => (best, mv)
  | i :: rest, best, mv =>
    let score := npMinimax 9 (b.set i Cell.O) 0 false
    if xltb best score then npBestLoop b rest score (some i)
    else npBestLoop b rest best mv

/-- `findBestMove` driven by the unpruned search, shortcuts unchanged. -/
def findBestMoveNP (r : Nat) (board : Board) : Option Nat :=
  let boardCopy := board
  let emptyCells := getEmptyCells boardCopy
  if emptyCells.length = 0 then none
  else if emptyCells.length = 9 then
    some (List.getD [0, 2, 4, 6, 8] (r % 5) 0)
  else if emptyCells.length = 8 ∧ cellG boardCopy 4 ≠ Cell.E then
    some (List.getD [0, 2, 6, 8] (r % 4) 0)
  else (npBestLoop boardCopy emptyCells .negInf none).2

/-! State-passing rendering of the same search, keeping the source's
`board[index] = PLAYER_O; ...; board[index] = EMPTY` mutation explicit:
every function returns the array it leaves behind, so "the engine restores
every cell it touches" is a provable statement about these definitions. -/

/-- Maximizing loop with the shared mutable array threaded through:
place the mark, recurse on the mutated array, then undo
(`board[index] = EMPTY`) on the array the recursion returned. -/
def maxLoopSt (rec : Board → XInt → XInt × Board) (beta : XInt) :
    List Nat → Board → XInt → XInt → XInt × Board
  | [], b, best, _ => (best, b)
  | i :: rest, b, best, alpha =>
    let sb := rec (b.set i Cell.O) alpha
    let b2 := sb.2.set i Cell.E
    let best' := xmax sb.1 best
    let alpha' := xmax alpha sb.1
    if xleb beta alpha' then (best', b2)
    else maxLoopSt rec beta rest b2 best' alpha'

/-- Minimizing loop with the mutable array threaded through. -/
def minLoopSt (rec : Board → XInt → XInt × Board) (alpha : XInt) :
    List Nat → Board → XInt → XInt → XInt × Board
  | [], b, best, _ => (best, b)
  | i :: rest, b, best, beta =>
    let sb := rec (b.set i Cell.X) beta
    let b2 := sb.2.set i Cell.E
    let best' := xmin sb.1 best
    let beta' := xmin beta sb.1
    if xleb beta' alpha then (best', b2)
    else minLoopSt rec alpha rest b2 best' beta'

/-- Terminal-position evaluation of the state-passing rendering. -/
def stZero : Board → Nat → Bool → XInt → XInt → XInt × Board :=
  fun board depth _ _ _ =>
    match checkWinner board with
    | some Cell.O => (.fin (10 - (depth : Int)), board)
    | some Cell.X => (.fin (-10 + (depth : Int)), board)
    | _ => (.fin 0, board)

/-- The body of `minimax` in the state-passing rendering. -/
def stStep (rec : Board → Nat → Bool → XInt → XInt → XInt × Board) :
    Board → Nat → Bool → XInt → XInt → XInt × Board :=
  fun board depth isMaximizing alpha beta =>
    match checkWinner board with
    | some Cell.O => (.fin (10 - (depth : Int)), board)
    | some Cell.X => (.fin (-10 + (depth : Int)), board)
    | _ =>
      if isBoardFull board then (.fin 0, board)
      else if isMaximizing then
        maxLoopSt (fun b' a' => rec b' (depth + 1) false a' beta)
          beta (getEmptyCells board) board .negInf alpha
      else
        minLoopSt (fun b' bt' => rec b' (depth + 1) true alpha bt')
          alpha (getEmptyCells board) board .posInf beta

/-- Function `minimax` in the state-passing rendering: the score together
with the array as the call leaves it. -/
def minimaxSt (fuel : Nat) : Board → Nat → Bool → XInt → XInt → XInt × Board :=
  Nat.rec stZero (fun _ ih => stStep ih) fuel

/-- Root loop of `findBestMove` in the state-passing rendering, mutating
and restoring `boardCopy`. -/
def bestLoopSt : List Nat → Board → XInt → Option Nat →
    XInt × Option Nat × Board
  | [], b, best, mv => (best, mv, b)
  | i :: rest, b, best, mv =>
    let sb := minimaxSt 9 (b.set i Cell.O) 0 false .negInf .posInf
    let b2 := sb.2.set i Cell.E
    if xltb best sb.1 then bestLoopSt rest b2 sb.1 (some i)
    else bestLoopSt rest b2 best mv

/-- Function `findBestMove` in the state-passing rendering: the move
together with the final state of `boardCopy = [...board]` (the caller's
`board` itself is never written at all: the source's first line copies). -/
def findBestMoveSt (r : Nat) (board : Board) : Option Nat × Board :=
  let boardCopy := board
  let emptyCells := getEmptyCells boardCopy
  if emptyCells.length = 0 then (none, boardCopy)
  else if emptyCells.length = 9 then
    (some (List.getD [0, 2, 4, 6, 8] (r % 5) 0), boardCopy)
  else if emptyCells.length = 8 ∧ cellG boardCopy 4 ≠ Cell.E then
    (some (List.getD [0, 2, 6, 8] (r % 4) 0), boardCopy)
  else
    let res := bestLoopSt emptyCells boardCopy .negInf none
    (res.2.1, res.2.2)

/-- Game-semantic reading of the spec's "force at least a draw", used to
state the engine-invincibility claim: with `oTurn` telling whose move it
is, `noLoss fuel b oTurn` holds when mark-O can guarantee that mark-X
never completes a line, whatever legal sequence mark-X plays — an
exists/forall alternation over the same `getEmptyCells` move generation
and `checkWinner` terminal test the engine uses.  `fuel ≥` the number of
empty cells makes the search complete (`nlZero` is the truncation, only
reached on terminal boards in such uses).  Split as `nlZero`/`nlStep`
folded by `Nat.rec`, like `minimax`. -/
def nlZero : Board → Bool → Bool :=
  fun b _ =>
    match checkWinner b with
    | some Cell.X => false
    | _ => true

/-- One unfolding of `noLoss` given the predicate at the next fuel. -/
def nlStep (rec : Board → Bool → Bool) : Board → Bool → Bool :=
  fun b oTurn =>
    match checkWinner b with
    | some Cell.O => true
    | some Cell.X => false
    | _ =>
      if isBoardFull b then true
      else if oTurn then
        (getEmptyCells b).any (fun i => rec (b.set i Cell.O) false)
      else
        (getEmptyCells b).all (fun i => rec (b.set i Cell.X) true)

/-- The draw-forcing predicate itself. -/
def noLoss (fuel : Nat) : Board → Bool → Bool :=
  Nat.rec nlZero (fun _ ih => nlStep ih) fuel

end AI

namespace Game

/-- A decided game's winner field: a mark, or the string `'draw'`. -/
inductive GWinner
  | mark (c : Cell)
  | draw
deriving DecidableEq, Repr

/-- Result object of `checkGameEnd`: `{ ended, winner, winningLine }`. -/
structure GEnd where
  ended : Bool
  winner : Option GWinner
  winningLine : Option (List Nat)
deriving DecidableEq, Repr

/-- Function `checkGameEnd(board)`: scan the winning combinations; on a
match report that mark and triple; else draw when the board is full; else
the game continues. -/
def checkGameEnd (board : Board) : GEnd :=
  match scanCombos board WINNING_COMBINATIONS with
  | some (m, combo) => ⟨true, some (GWinner.mark m), some combo⟩
  | none =>
    if board.all (fun cell => cell != Cell.E) then
      ⟨true, some GWinner.draw, none⟩
    else ⟨false, none, none⟩

/-- The module's game state object. -/
structure GameState where
  board : Board
  currentPlayer : Cell
  gameOver : Bool
  winner : Option GWinner
  winningLine : Option (List Nat)
  playerSymbol : Cell
  aiSymbol : Cell
deriving DecidableEq, Repr

/-- Function `createInitialState(playerSymbol)`. -/
def createInitialState (playerSymbol : Cell) : GameState :=
  { board := List.replicate 9 Cell.E
    currentPlayer := Cell.X
    gameOver := false
    winner := none
    winningLine := none
    playerSymbol := playerSymbol
    aiSymbol := if playerSymbol = Cell.X then Cell.O else Cell.X }

/-- Function `init(playerSymbol)`: an invalid symbol defaults to `'X'`;
mark-X always moves first. -/
def init (playerSymbol : Cell) : GameState :=
  let ps :=
    if playerSymbol ≠ Cell.X ∧ playerSymbol ≠ Cell.O then Cell.X
    else playerSymbol
  createInitialState ps

/-- Function `isValidMove(index)`: not over, in range, and empty.  The
index is an arbitrary JavaScript number, modelled as `Int` so the
out-of-range checks are meaningful. -/
def isValidMove (index : Int) (s : GameState) : Bool :=
  !s.gameOver && decide (0 ≤ index) && decide (index < 9) &&
    (cellG s.board index.toNat == Cell.E)

/-- Function `makeMove(index)`: validity-guarded no-op on failure; place
the current player's mark, run terminal detection, and only when the game
continues flip the player.  Returns the success flag with the state the
call leaves behind. -/
def makeMove (index : Int) (s : GameState) : Bool × GameState :=
  if !(isValidMove index s) then (false, s)
  else
    let board' := s.board.set index.toNat s.currentPlayer
    let result := checkGameEnd board'
    if result.ended then
      (true, { s with
        board := board'
        gameOver := true
        winner := result.winner
        winningLine := result.winningLine })
    else
      (true, { s with
        board := board'
        currentPlayer :=
          if s.currentPlayer = Cell.X then Cell.O else Cell.X })

/-- A whole session: the fold of `makeMove` over a list of requested
indices, starting from a fresh state. -/
def applyMoves (moves : List Int) (s : GameState) : GameState :=
  moves.foldl (fun st i => (makeMove i st).2) s

end Game

namespace Fast

/-- Bitmask of the cells holding mark `c`: bit `i` of `maskOf c b` is set
exactly when `cellG b i = c`. -/
def maskOf (c : Cell) : Board → Nat
  | [] => 0
  | x :: t => (if x = c then 1 else 0) + 2 * maskOf c t

/-- Score encoding into `Nat`: `-Infinity` is 0, an integer score `n`
(always within `[-10, 10]` here) is `n + 20`, `Infinity` is 1000. -/
def xenc : AI.XInt → Nat
  | .negInf => 0
  | .fin n => (n + 20).toNat
  | .posInf => 1000

/-- The 512-entry winning-mask table packed into one number: bit `m` is
set exactly when the 9-bit mask `m` contains one of the 8 winning lines
(proved below by full enumeration). -/
def WT : Nat := 13407807929942597099574013255132872028739945207506855185984536220990031079651139828398970461379756263750237762468915789768244935419011274038663501414695040

/-- All cell indices, the fast loops' iteration space. -/
def CELLS : List Nat := [0, 1, 2, 3, 4, 5, 6, 7, 8]

/-- Maximum on encoded scores. -/
def nmax (a b : Nat) : Nat := if Nat.ble a b = true then b else a

/-- Minimum on encoded scores. -/
def nmin (a b : Nat) : Nat := if Nat.ble a b = true then a else b

/-- Maximizing loop on the bitmasks, skipping occupied cells: equal to the
source loop over `getEmptyCells`. -/
def maxLoopB (rec : Nat → Nat → Nat → Nat) (xm om : Nat) (beta : Nat)
    (l : List Nat) : Nat → Nat → Nat :=
  List.rec (motive := fun _ => Nat → Nat → Nat)
    (fun best _ => best)
    (fun i _ ih best alpha =>
      if ((xm ||| om) >>> i) % 2 = 1 then ih best alpha
      else
        let score := rec xm (om + 2 ^ i) alpha
        let best' := nmax score best
        let alpha' := nmax alpha score
        if Nat.ble beta alpha' = true then best' else ih best' alpha') l

/-- Minimizing loop on the bitmasks. -/
def minLoopB (rec : Nat → Nat → Nat → Nat) (xm om : Nat) (alpha : Nat)
    (l : List Nat) : Nat → Nat → Nat :=
  List.rec (motive := fun _ => Nat → Nat → Nat)
    (fun best _ => best)
    (fun i _ ih best beta =>
      if ((xm ||| om) >>> i) % 2 = 1 then ih best beta
      else
        let score := rec (xm + 2 ^ i) om beta
        let best' := nmin score best
        let beta' := nmin beta score
        if Nat.ble beta' alpha = true then best' else ih best' beta') l

/-- Terminal-only evaluation, the fuel-0 case of the fast search. -/
def mmBaseB : Nat → Nat → Nat → Bool → Nat → Nat → Nat :=
  fun xm om d _ _ _ =>
    if (WT >>> om) % 2 = 1 then 30 - d
    else if (WT >>> xm) % 2 = 1 then 10 + d
    else 20

/-- One unfolding of the fast search given the search at the next fuel. -/
def mmStepB (rec : Nat → Nat → Nat → Bool → Nat → Nat → Nat) :
    Nat → Nat → Nat → Bool → Nat → Nat → Nat :=
  fun xm om d mx alpha beta =>
    if (WT >>> om) % 2 = 1 then 30 - d
    else if (WT >>> xm) % 2 = 1 then 10 + d
    else if xm ||| om = 511 then 20
    else if mx then
      maxLoopB (fun xm' om' a' => rec xm' om' (d + 1) false a' beta)
        xm om beta CELLS 0 alpha
    else
      minLoopB (fun xm' om' bt' => rec xm' om' (d + 1) true alpha bt')
        xm om alpha CELLS 1000 beta

/-- The fast alpha-beta search on bitmasks, proven below to compute
exactly `xenc` of `AI.minimax` on one-sided boards. -/
def minimaxB (fuel : Nat) : Nat → Nat → Nat → Bool → Nat → Nat → Nat :=
  Nat.rec mmBaseB (fun _ ih => mmStepB ih) fuel

end Fast

/-! Order lemmas for the score type. -/

namespace AI

theorem xleb_refl (a : XInt) : xleb a a = true := by
  cases a <;> simp [xleb]

theorem xleb_trans {a b c : XInt} (h1 : xleb a b = true)
    (h2 : xleb b c = true) : xleb a c = true := by
  cases a <;> cases b <;> cases c <;> simp_all [xleb] <;> omega

theorem xleb_antisymm {a b : XInt} (h1 : xleb a b = true)
    (h2 : xleb b a = true) : a = b := by
  cases a <;> cases b <;> simp_all [xleb] <;> omega

theorem xleb_total (a b : XInt) : xleb a b = true ∨ xleb b a = true := by
  cases a <;> cases b <;> simp [xleb] <;> omega

theorem xltb_eq_not_xleb (a b : XInt) : xltb a b = !xleb b a := by
  cases a <;> cases b <;> simp only [xleb, xltb, Bool.not_true, Bool.not_false] <;>
    try rfl
  rename_i n m
  rw [← decide_not, decide_eq_decide]
  omega

theorem xltb_of_not_xleb {a b : XInt} (h : ¬ xleb b a = true) :
    xltb a b = true := by
  rw [xltb_eq_not_xleb]
  simp [h]

theorem xleb_of_not_xltb {a b : XInt} (h : ¬ xltb a b = true) :
    xleb b a = true := by
  rw [xltb_eq_not_xleb] at h
  simpa using h

theorem xleb_of_xltb {a b : XInt} (h : xltb a b = true) : xleb a b = true := by
  cases a <;> cases b <;> simp_all [xleb, xltb] <;> omega

theorem not_xleb_of_xltb {a b : XInt} (h : xltb a b = true) :
    ¬ xleb b a = true := by
  rw [xltb_eq_not_xleb] at h
  simpa using h

theorem xltb_of_xltb_of_xleb {a b c : XInt} (h1 : xltb a b = true)
    (h2 : xleb b c = true) : xltb a c = true := by
  cases a <;> cases b <;> cases c <;> simp_all [xleb, xltb] <;> omega

theorem xltb_of_xleb_of_xltb {a b c : XInt} (h1 : xleb a b = true)
    (h2 : xltb b c = true) : xltb a c = true := by
  cases a <;> cases b <;> cases c <;> simp_all [xleb, xltb] <;> omega

theorem xleb_negInf (a : XInt) : xleb .negInf a = true := by
  cases a <;> simp [xleb]

theorem xmax_negInf (a : XInt) : xmax a .negInf = a := by
  cases a <;> simp [xmax, xleb]

theorem xmin_posInf (a : XInt) : xmin a .posInf = a := by
  cases a <;> simp [xmin, xleb]

theorem xleb_xmax_left (a b : XInt) : xleb a (xmax a b) = true := by
  unfold xmax
  by_cases h : xleb a b = true
  · simp [h]
  · simp [h, xleb_refl]

theorem xleb_xmax_right (a b : XInt) : xleb b (xmax a b) = true := by
  unfold xmax
  by_cases h : xleb a b = true
  · simp [h, xleb_refl]
  · simp [h]
    rcases xleb_total a b with h' | h'
    · exact absurd h' h
    · exact h'

theorem xmax_le {a b c : XInt} (h1 : xleb a c = true) (h2 : xleb b c = true) :
    xleb (xmax a b) c = true := by
  unfold xmax
  by_cases h : xleb a b = true <;> simp [h, h1, h2]

theorem xmax_cases (a b : XInt) : xmax a b = a ∨ xmax a b = b := by
  unfold xmax
  by_cases h : xleb a b = true <;> simp [h]

theorem xmax_eq_left {a b : XInt} (h : xleb b a = true) : xmax a b = a := by
  unfold xmax
  by_cases h' : xleb a b = true
  · simp [h', xleb_antisymm h' h]
  · simp [h']

theorem xmax_eq_right {a b : XInt} (h : xleb a b = true) : xmax a b = b := by
  unfold xmax
  simp [h]

theorem xmax_left_comm (a b c : XInt) : xmax a (xmax b c) = xmax b (xmax a c) := by
  apply xleb_antisymm
  · apply xmax_le
    · exact xleb_trans (xleb_xmax_left a c) (xleb_xmax_right b (xmax a c))
    · apply xmax_le
      · exact xleb_xmax_left b (xmax a c)
      · exact xleb_trans (xleb_xmax_right a c) (xleb_xmax_right b (xmax a c))
  · apply xmax_le
    · exact xleb_trans (xleb_xmax_left b c) (xleb_xmax_right a (xmax b c))
    · apply xmax_le
      · exact xleb_xmax_left a (xmax b c)
      · exact xleb_trans (xleb_xmax_right b c) (xleb_xmax_right a (xmax b c))

theorem xmin_le_left (a b : XInt) : xleb (xmin a b) a = true := by
  unfold xmin
  by_cases h : xleb a b = true
  · simp [h, xleb_refl]
  · simp [h]
    rcases xleb_total a b with h' | h'
    · exact absurd h' h
    · exact h'

theorem xmin_le_right (a b : XInt) : xleb (xmin a b) b = true := by
  unfold xmin
  by_cases h : xleb a b = true
  · simp [h]
  · simp [h, xleb_refl]

theorem le_xmin {a b c : XInt} (h1 : xleb c a = true) (h2 : xleb c b = true) :
    xleb c (xmin a b) = true := by
  unfold xmin
  by_cases h : xleb a b = true <;> simp [h, h1, h2]

theorem xmin_cases (a b : XInt) : xmin a b = a ∨ xmin a b = b := by
  unfold xmin
  by_cases h : xleb a b = true <;> simp [h]

theorem xmin_eq_left {a b : XInt} (h : xleb a b = true) : xmin a b = a := by
  unfold xmin
  simp [h]

theorem xmin_eq_right {a b : XInt} (h : xleb b a = true) : xmin a b = b := by
  unfold xmin
  by_cases h' : xleb a b = true
  · simp [h', xleb_antisymm h' h]
  · simp [h']

theorem xmin_left_comm (a b c : XInt) : xmin a (xmin b c) = xmin b (xmin a c) := by
  apply xleb_antisymm
  · apply le_xmin
    · exact xleb_trans (xmin_le_right a (xmin b c)) (xmin_le_left b c)
    · apply le_xmin
      · exact xmin_le_left a (xmin b c)
      · exact xleb_trans (xmin_le_right a (xmin b c)) (xmin_le_right b c)
  · apply le_xmin
    · exact xleb_trans (xmin_le_right b (xmin a c)) (xmin_le_left a c)
    · apply le_xmin
      · exact xmin_le_left b (xmin a c)
      · exact xleb_trans (xmin_le_right b (xmin a c)) (xmin_le_right a c)

theorem xltb_negInf (a : XInt) : xltb a .negInf = false := by
  cases a <;> rfl

theorem posInf_xltb (a : XInt) : xltb .posInf a = false := rfl

theorem eq_negInf_of_xleb {a : XInt} (h : xleb a .negInf = true) :
    a = .negInf := by
  cases a <;> simp_all [xleb]

theorem eq_posInf_of_xleb {a : XInt} (h : xleb .posInf a = true) :
    a = .posInf := by
  cases a <;> simp_all [xleb]

/-! Fail-soft correctness of the alpha-beta pruned search against the
unpruned search: within the window the pruned value is exact, a fail-low
value upper-bounds the true value, a fail-high value lower-bounds it.
`spec3 r v a b` relates the pruned result `r` to the unpruned value `v`
for a search window `(a, b)`. -/

def spec3 (r v a b : XInt) : Prop :=
  (xleb r a = true → xleb v r = true) ∧
  (xleb b r = true → xleb r v = true) ∧
  (xltb a r = true → xltb r b = true → r = v)

theorem spec3_refl (r a b : XInt) : spec3 r r a b :=
  ⟨fun _ => xleb_refl r, fun _ => xleb_refl r, fun _ _ => rfl⟩

theorem npMaxLoop_grows (recNP : Board → XInt) (b : Board) :
    ∀ (l : List Nat) (acc : XInt), xleb acc (npMaxLoop recNP b l acc) = true := by
  intro l
  induction l with
  | nil => intro acc; exact xleb_refl acc
  | cons i rest ih =>
    intro acc
    exact xleb_trans (xleb_xmax_right (recNP (b.set i Cell.O)) acc)
      (ih (xmax (recNP (b.set i Cell.O)) acc))

theorem npMinLoop_shrinks (recNP : Board → XInt) (b : Board) :
    ∀ (l : List Nat) (acc : XInt), xleb (npMinLoop recNP b l acc) acc = true := by
  intro l
  induction l with
  | nil => intro acc; exact xleb_refl acc
  | cons i rest ih =>
    intro acc
    exact xleb_trans (ih (xmin (recNP (b.set i Cell.X)) acc))
      (xmin_le_right (recNP (b.set i Cell.X)) acc)

theorem maxLoop_spec (rec : Board → XInt → XInt) (recNP : Board → XInt)
    (b : Board) (alpha0 beta : XInt) :
    ∀ (l : List Nat) (best alpha vb : XInt),
      (∀ i ∈ l, ∀ a, xltb a beta = true →
        spec3 (rec (b.set i Cell.O) a) (recNP (b.set i Cell.O)) a beta) →
      alpha = xmax alpha0 best →
      xltb alpha beta = true →
      xleb vb best = true →
      (xltb alpha0 best = true → vb = best) →
      spec3 (maxLoop rec b beta l best alpha) (npMaxLoop recNP b l vb)
        alpha0 beta := by
  intro l
  induction l with
  | nil =>
    intro best alpha vb _ hI1 hI2 hJ1 hJ2
    refine ⟨fun _ => hJ1, fun hb => ?_, fun h1 _ => (hJ2 h1).symm⟩
    have hba : xleb best alpha = true := hI1 ▸ xleb_xmax_right alpha0 best
    have : xltb best beta = true := xltb_of_xleb_of_xltb hba hI2
    exact absurd hb (not_xleb_of_xltb this)
  | cons i rest ih =>
    intro best alpha vb hchild hI1 hI2 hJ1 hJ2
    have hs := hchild i (List.mem_cons_self i rest) alpha hI2
    set s := rec (b.set i Cell.O) alpha with hsdef
    set w := recNP (b.set i Cell.O) with hwdef
    show spec3
      (if xleb beta (xmax alpha s) = true then xmax s best
       else maxLoop rec b beta rest (xmax s best) (xmax alpha s))
      (npMaxLoop recNP b rest (xmax w vb)) alpha0 beta
    by_cases hbrk : xleb beta (xmax alpha s) = true
    · rw [if_pos hbrk]
      have hbs : xleb beta s = true := by
        rcases xmax_cases alpha s with hc | hc
        · rw [hc] at hbrk; exact absurd hbrk (not_xleb_of_xltb hI2)
        · rwa [hc] at hbrk
      have hsw : xleb s w = true := hs.2.1 hbs
      have hba : xleb best alpha = true := hI1 ▸ xleb_xmax_right alpha0 best
      have hbests : xleb best s = true :=
        xleb_trans hba (xleb_trans (xleb_of_xltb hI2) hbs)
      rw [xmax_eq_left hbests]
      have ha0alpha : xleb alpha0 alpha = true := hI1 ▸ xleb_xmax_left alpha0 best
      refine ⟨fun hlow => ?_, fun _ => ?_, fun _ hmid => ?_⟩
      · have : xleb beta alpha = true :=
          xleb_trans hbs (xleb_trans hlow ha0alpha)
        exact absurd this (not_xleb_of_xltb hI2)
      · exact xleb_trans hsw
          (xleb_trans (xleb_xmax_left w vb) (npMaxLoop_grows recNP b rest (xmax w vb)))
      · exact absurd hbs (not_xleb_of_xltb hmid)
    · rw [if_neg hbrk]
      have halt : xltb (xmax alpha s) beta = true := xltb_of_not_xleb hbrk
      have hnsb : ¬ xleb beta s = true := fun h =>
        hbrk (xleb_trans h (xleb_xmax_right alpha s))
      have hslt : xltb s beta = true := xltb_of_not_xleb hnsb
      by_cases hfl : xleb s alpha = true
      · -- fail low: the true child value is at most the returned score
        have hw : xleb w s = true := hs.1 hfl
        have halpha' : xmax alpha s = alpha := xmax_eq_left hfl
        rw [halpha']
        apply ih (xmax s best) alpha (xmax w vb)
          (fun j hj => hchild j (List.mem_cons_of_mem i hj))
        · rw [xmax_left_comm, ← hI1, xmax_eq_right hfl]
        · exact hI2
        · exact xmax_le (xleb_trans hw (xleb_xmax_left s best))
            (xleb_trans hJ1 (xleb_xmax_right s best))
        · intro hJ
          by_cases hsb : xleb s best = true
          · rw [xmax_eq_right hsb] at hJ ⊢
            rw [hJ2 hJ]
            exact xmax_eq_right (xleb_trans hw hsb)
          · exfalso
            have hbs' : xltb best s = true := xltb_of_not_xleb hsb
            rw [xmax_eq_left (xleb_of_xltb hbs')] at hJ
            rcases xmax_cases alpha0 best with hc | hc
            · rw [← hI1] at hc
              rw [hc] at hfl
              exact absurd hfl (not_xleb_of_xltb hJ)
            · rw [← hI1] at hc
              rw [hc] at hfl
              exact hsb hfl
      · -- exact: alpha < s < beta, the child score is the true value
        have halpha_s : xltb alpha s = true := xltb_of_not_xleb hfl
        have hw : s = w := hs.2.2 halpha_s hslt
        have halpha' : xmax alpha s = s := xmax_eq_right (xleb_of_xltb halpha_s)
        rw [halpha', ← hw]
        apply ih (xmax s best) s (xmax s vb)
          (fun j hj => hchild j (List.mem_cons_of_mem i hj))
        · rw [xmax_left_comm, ← hI1]
          exact (xmax_eq_left (xleb_of_xltb halpha_s)).symm
        · exact hslt
        · exact xmax_le (xleb_xmax_left s best)
            (xleb_trans hJ1 (xleb_xmax_right s best))
        · intro hJ
          by_cases hsb : xleb s best = true
          · rw [xmax_eq_right hsb] at hJ ⊢
            rw [hJ2 hJ]
            exact xmax_eq_right hsb
          · have hbs' : xleb best s = true :=
              xleb_of_xltb (xltb_of_not_xleb hsb)
            rw [xmax_eq_left hbs', xmax_eq_left (xleb_trans hJ1 hbs')]

theorem minLoop_spec (rec : Board → XInt → XInt) (recNP : Board → XInt)
    (b : Board) (alpha beta0 : XInt) :
    ∀ (l : List Nat) (best beta vb : XInt),
      (∀ i ∈ l, ∀ bt, xltb alpha bt = true →
        spec3 (rec (b.set i Cell.X) bt) (recNP (b.set i Cell.X)) alpha bt) →
      beta = xmin beta0 best →
      xltb alpha beta = true →
      xleb best vb = true →
      (xltb best beta0 = true → vb = best) →
      spec3 (minLoop rec b alpha l best beta) (npMinLoop recNP b l vb)
        alpha beta0 := by
  intro l
  induction l with
  | nil =>
    intro best beta vb _ hI1 hI2 hJ1 hJ2
    refine ⟨fun ha => ?_, fun _ => hJ1, fun _ h2 => (hJ2 h2).symm⟩
    have hba : xleb beta best = true := hI1 ▸ xmin_le_right beta0 best
    have : xltb alpha best = true := xltb_of_xltb_of_xleb hI2 hba
    exact absurd ha (not_xleb_of_xltb this)
  | cons i rest ih =>
    intro best beta vb hchild hI1 hI2 hJ1 hJ2
    have hs := hchild i (List.mem_cons_self i rest) beta hI2
    set s := rec (b.set i Cell.X) beta with hsdef
    set w := recNP (b.set i Cell.X) with hwdef
    show spec3
      (if xleb (xmin beta s) alpha = true then xmin s best
       else minLoop rec b alpha rest (xmin s best) (xmin beta s))
      (npMinLoop recNP b rest (xmin w vb)) alpha beta0
    by_cases hbrk : xleb (xmin beta s) alpha = true
    · rw [if_pos hbrk]
      have hbs : xleb s alpha = true := by
        rcases xmin_cases beta s with hc | hc
        · rw [hc] at hbrk; exact absurd hbrk (not_xleb_of_xltb hI2)
        · rwa [hc] at hbrk
      have hsw : xleb w s = true := hs.1 hbs
      have hba : xleb beta best = true := hI1 ▸ xmin_le_right beta0 best
      have hsbest : xleb s best = true :=
        xleb_trans hbs (xleb_trans (xleb_of_xltb hI2) hba)
      rw [xmin_eq_left hsbest]
      have hbeta0 : xleb beta beta0 = true := hI1 ▸ xmin_le_left beta0 best
      refine ⟨fun _ => ?_, fun hhigh => ?_, fun hmid _ => ?_⟩
      · exact xleb_trans
          (xleb_trans (npMinLoop_shrinks recNP b rest (xmin w vb)) (xmin_le_left w vb))
          hsw
      · have : xleb beta alpha = true :=
          xleb_trans (xleb_trans hbeta0 hhigh) hbs
        exact absurd this (not_xleb_of_xltb hI2)
      · exact absurd hbs (not_xleb_of_xltb hmid)
    · rw [if_neg hbrk]
      have halt : xltb alpha (xmin beta s) = true := xltb_of_not_xleb hbrk
      have hnsb : ¬ xleb s alpha = true := fun h =>
        hbrk (xleb_trans (xmin_le_right beta s) h)
      have hslt : xltb alpha s = true := xltb_of_not_xleb hnsb
      by_cases hfh : xleb beta s = true
      · -- fail high at this node's running bound: score at least beta
        have hw : xleb s w = true := hs.2.1 hfh
        have hbeta' : xmin beta s = beta := xmin_eq_left hfh
        rw [hbeta']
        apply ih (xmin s best) beta (xmin w vb)
          (fun j hj => hchild j (List.mem_cons_of_mem i hj))
        · rw [xmin_left_comm, ← hI1, xmin_eq_right hfh]
        · exact hI2
        · exact le_xmin (xleb_trans (xmin_le_left s best) hw)
            (xleb_trans (xmin_le_right s best) hJ1)
        · intro hJ
          by_cases hsb : xleb best s = true
          · rw [xmin_eq_right hsb] at hJ ⊢
            rw [hJ2 hJ]
            exact xmin_eq_right (xleb_trans hsb hw)
          · exfalso
            have hbs' : xltb s best = true := xltb_of_not_xleb hsb
            rw [xmin_eq_left (xleb_of_xltb hbs')] at hJ
            rcases xmin_cases beta0 best with hc | hc
            · rw [← hI1] at hc
              rw [hc] at hfh
              exact absurd hfh (not_xleb_of_xltb hJ)
            · rw [← hI1] at hc
              rw [hc] at hfh
              exact hsb hfh
      · -- exact: alpha < s < beta
        have hs_beta : xltb s beta = true := xltb_of_not_xleb hfh
        have hw : s = w := hs.2.2 hslt hs_beta
        have hbeta' : xmin beta s = s := xmin_eq_right (xleb_of_xltb hs_beta)
        rw [hbeta', ← hw]
        apply ih (xmin s best) s (xmin s vb)
          (fun j hj => hchild j (List.mem_cons_of_mem i hj))
        · rw [xmin_left_comm, ← hI1]
          exact (xmin_eq_left (xleb_of_xltb hs_beta)).symm
        · exact hslt
        · exact le_xmin (xmin_le_left s best)
            (xleb_trans (xmin_le_right s best) hJ1)
        · intro hJ
          by_cases hsb : xleb best s = true
          · rw [xmin_eq_right hsb] at hJ ⊢
            rw [hJ2 hJ]
            exact xmin_eq_right hsb
          · have hbs' : xleb s best = true :=
              xleb_of_xltb (xltb_of_not_xleb hsb)
            rw [xmin_eq_left hbs', xmin_eq_left (xleb_trans hbs' hJ1)]

theorem minimax_succ_eq (fuel' : Nat) :
    minimax (fuel' + 1) = mmStep (minimax fuel') := rfl

theorem npMinimax_succ_eq (fuel' : Nat) :
    npMinimax (fuel' + 1) = npStep (npMinimax fuel') := rfl

theorem minimax_spec3 :
    ∀ (fuel : Nat) (b : Board) (d : Nat) (mx : Bool) (alpha beta : XInt),
      xltb alpha beta = true →
      spec3 (minimax fuel b d mx alpha beta) (npMinimax fuel b d mx)
        alpha beta := by
  intro fuel
  induction fuel with
  | zero =>
    intro b d mx alpha beta _
    show spec3 (mmZero b d mx alpha beta) (npZero b d mx) alpha beta
    unfold mmZero npZero
    cases checkWinner b with
    | none => exact spec3_refl _ _ _
    | some c => cases c <;> exact spec3_refl _ _ _
  | succ fuel' ih =>
    intro b d mx alpha beta hab
    rw [minimax_succ_eq, npMinimax_succ_eq]
    unfold mmStep npStep
    cases hw : checkWinner b with
    | none =>
      by_cases hf : isBoardFull b = true
      · simp [hf, spec3_refl]
      · simp only [hf, if_false, Bool.false_eq_true]
        cases mx with
        | true =>
          simp only [if_true]
          apply maxLoop_spec _ _ b alpha beta (getEmptyCells b) .negInf alpha .negInf
          · intro i _ a ha
            exact ih (b.set i Cell.O) (d + 1) false a beta ha
          · exact (xmax_negInf alpha).symm
          · exact hab
          · exact xleb_refl _
          · exact fun _ => rfl
        | false =>
          simp only [if_false, Bool.false_eq_true]
          apply minLoop_spec _ _ b alpha beta (getEmptyCells b) .posInf beta .posInf
          · intro i _ bt hbt
            exact ih (b.set i Cell.X) (d + 1) true alpha bt hbt
          · exact (xmin_posInf beta).symm
          · exact hab
          · exact xleb_refl _
          · exact fun _ => rfl
    | some c =>
      cases c with
      | E =>
        by_cases hf : isBoardFull b = true
        · simp [hf, spec3_refl]
        · simp only [hf, if_false, Bool.false_eq_true]
          cases mx with
          | true =>
            simp only [if_true]
            apply maxLoop_spec _ _ b alpha beta (getEmptyCells b) .negInf alpha .negInf
            · intro i _ a ha
              exact ih (b.set i Cell.O) (d + 1) false a beta ha
            · exact (xmax_negInf alpha).symm
            · exact hab
            · exact xleb_refl _
            · exact fun _ => rfl
          | false =>
            simp only [if_false, Bool.false_eq_true]
            apply minLoop_spec _ _ b alpha beta (getEmptyCells b) .posInf beta .posInf
            · intro i _ bt hbt
              exact ih (b.set i Cell.X) (d + 1) true alpha bt hbt
            · exact (xmin_posInf beta).symm
            · exact hab
            · exact xleb_refl _
            · exact fun _ => rfl
      | X => exact spec3_refl _ _ _
      | O => exact spec3_refl _ _ _

end AI

/-! Board access and empty-cell lemmas. -/

theorem cellG_set_eq {b : Board} {i : Nat} (h : i < b.length) (c : Cell) :
    cellG (b.set i c) i = c := by
  unfold cellG
  rw [List.getD_eq_getElem?_getD, List.getElem?_set_self h]
  rfl

theorem cellG_set_ne (b : Board) {i k : Nat} (h : i ≠ k) (c : Cell) :
    cellG (b.set i c) k = cellG b k := by
  unfold cellG
  rw [List.getD_eq_getElem?_getD, List.getD_eq_getElem?_getD,
    List.getElem?_set_ne h]

theorem mem_getEmptyCells {b : Board} {i : Nat} :
    i ∈ AI.getEmptyCells b ↔ i < b.length ∧ cellG b i = Cell.E := by
  unfold AI.getEmptyCells
  simp [List.mem_filter, List.mem_range]

theorem set_self_of_cellG_eq :
    ∀ (b : Board) (i : Nat), cellG b i = Cell.E → b.set i Cell.E = b := by
  intro b
  induction b with
  | nil => intro i _; rfl
  | cons hd tl ih =>
    intro i h
    cases i with
    | zero =>
      simp only [cellG, List.getD_cons_zero] at h
      simp [List.set, h]
    | succ i' =>
      simp only [List.set, List.cons.injEq, true_and]
      exact ih i' (by simpa [cellG] using h)

theorem isBoardFull_iff {b : Board} :
    AI.isBoardFull b = true ↔ ∀ c ∈ b, c ≠ Cell.E := by
  unfold AI.isBoardFull
  simp [List.all_eq_true]

theorem getEmptyCells_nil_iff {b : Board} :
    AI.getEmptyCells b = [] ↔ AI.isBoardFull b = true := by
  constructor
  · intro h
    rw [isBoardFull_iff]
    intro c hc he
    obtain ⟨i, hi, hget⟩ := List.mem_iff_getElem.mp hc
    have : i ∈ AI.getEmptyCells b := by
      rw [mem_getEmptyCells]
      refine ⟨hi, ?_⟩
      unfold cellG
      rw [List.getD_eq_getElem?_getD, List.getElem?_eq_getElem hi]
      simp [hget, he]
    rw [h] at this
    exact absurd this (List.not_mem_nil i)
  · intro h
    rw [isBoardFull_iff] at h
    cases he : AI.getEmptyCells b with
    | nil => rfl
    | cons j t =>
      exfalso
      have hj : j ∈ AI.getEmptyCells b := he ▸ List.mem_cons_self j t
      rw [mem_getEmptyCells] at hj
      have : cellG b j ≠ Cell.E := by
        apply h
        unfold cellG
        rw [List.getD_eq_getElem?_getD, List.getElem?_eq_getElem hj.1]
        exact List.getElem_mem hj.1
      exact this hj.2

/-! Characterization of the winner scan. -/

theorem scanCombos_eq_none_iff {b : Board} :
    ∀ {cs : List (List Nat)},
      scanCombos b cs = none ↔ ∀ c ∈ cs, tripleWin b c = none := by
  intro cs
  induction cs with
  | nil => simp [scanCombos]
  | cons c rest ih =>
    unfold scanCombos
    cases hw : tripleWin b c with
    | some m => simp [hw]
    | none => simp [hw, ih]

theorem scanCombos_eq_some {b : Board} :
    ∀ {cs : List (List Nat)} {m : Cell} {t : List Nat},
      scanCombos b cs = some (m, t) →
      t ∈ cs ∧ tripleWin b t = some m := by
  intro cs
  induction cs with
  | nil => intro m t h; exact absurd h (by simp [scanCombos])
  | cons c rest ih =>
    intro m t h
    unfold scanCombos at h
    cases hw : tripleWin b c with
    | some m0 =>
      rw [hw] at h
      obtain ⟨hm, ht⟩ : m0 = m ∧ c = t := by
        constructor <;> [exact (Prod.mk.injEq _ _ _ _ ▸ Option.some.inj h).1;
          exact (Prod.mk.injEq _ _ _ _ ▸ Option.some.inj h).2]
      subst hm; subst ht
      exact ⟨List.mem_cons_self c rest, hw⟩
    | none =>
      rw [hw] at h
      obtain ⟨h1, h2⟩ := ih h
      exact ⟨List.mem_cons_of_mem c h1, h2⟩

theorem scanCombos_eq_some_iff {b : Board} :
    ∀ {cs : List (List Nat)} {m : Cell} {t : List Nat},
      scanCombos b cs = some (m, t) ↔
      ∃ k, ∃ h : k < cs.length,
        t = cs.get ⟨k, h⟩ ∧ tripleWin b t = some m ∧
        ∀ c' ∈ cs.take k, tripleWin b c' = none := by
  intro cs
  induction cs with
  | nil =>
    intro m t
    simp [scanCombos]
  | cons c rest ih =>
    intro m t
    unfold scanCombos
    cases hw : tripleWin b c with
    | some m0 =>
      simp only [Option.some.injEq, Prod.mk.injEq]
      constructor
      · rintro ⟨hm, ht⟩
        exact ⟨0, by simp, by simp [← ht], by simp [← ht, hw, hm], by simp⟩
      · rintro ⟨k, hk, ht, htw, hpre⟩
        cases k with
        | zero =>
          simp only [List.get] at ht
          subst ht
          rw [hw] at htw
          exact ⟨Option.some.inj htw, rfl⟩
        | succ k' =>
          exfalso
          have : tripleWin b c = none := by
            apply hpre
            rw [List.take_succ_cons]
            exact List.mem_cons_self c _
          rw [this] at hw
          exact Option.noConfusion hw
    | none =>
      rw [ih]
      constructor
      · rintro ⟨k, hk, ht, htw, hpre⟩
        refine ⟨k + 1, by simpa using Nat.succ_lt_succ hk, ?_, htw, ?_⟩
        · simpa using ht
        · intro c' hc'
          rw [List.take_succ_cons] at hc'
          rcases List.mem_cons.mp hc' with h | h
          · rw [h]; exact hw
          · exact hpre c' h
      · rintro ⟨k, hk, ht, htw, hpre⟩
        cases k with
        | zero =>
          exfalso
          simp only [List.get] at ht
          subst ht
          rw [hw] at htw
          exact Option.noConfusion htw
        | succ k' =>
          refine ⟨k', by simpa using Nat.lt_of_succ_lt_succ hk, by simpa using ht,
            htw, ?_⟩
          intro c' hc'
          apply hpre
          rw [List.take_succ_cons]
          exact List.mem_cons_of_mem c hc'

theorem tripleWin_result {b : Board} {c : List Nat} {m : Cell}
    (h : tripleWin b c = some m) :
    m ≠ Cell.E ∧ ∃ x y z, c = [x, y, z] ∧ cellG b x = m ∧ cellG b y = m ∧
      cellG b z = m := by
  rcases c with _ | ⟨x, c⟩
  · exact Option.noConfusion h
  rcases c with _ | ⟨y, c⟩
  · exact Option.noConfusion h
  rcases c with _ | ⟨z, c⟩
  · exact Option.noConfusion h
  rcases c with _ | ⟨w, c⟩
  swap
  · exact Option.noConfusion h
  have h' : (if cellG b x ≠ Cell.E ∧ cellG b x = cellG b y ∧ cellG b x = cellG b z
      then some (cellG b x) else none) = some m := h
  by_cases hc : cellG b x ≠ Cell.E ∧ cellG b x = cellG b y ∧ cellG b x = cellG b z
  · rw [if_pos hc] at h'
    have hm : cellG b x = m := Option.some.inj h'
    refine ⟨?_, x, y, z, rfl, hm, hc.2.1.symm.trans hm, hc.2.2.symm.trans hm⟩
    rw [← hm]
    exact hc.1
  · rw [if_neg hc] at h'
    exact Option.noConfusion h'

namespace AI

/-- With the full window the pruned search computes exactly the unpruned
value. -/
theorem minimax_eq_np (fuel : Nat) (b : Board) (d : Nat) (mx : Bool) :
    minimax fuel b d mx .negInf .posInf = npMinimax fuel b d mx := by
  have h := minimax_spec3 fuel b d mx .negInf .posInf (by rfl)
  cases hr : minimax fuel b d mx .negInf .posInf with
  | negInf =>
    have := h.1 (by rw [hr]; exact xleb_refl _)
    rw [hr] at this
    exact (eq_negInf_of_xleb this).symm
  | posInf =>
    have := h.2.1 (by rw [hr]; exact xleb_refl _)
    rw [hr] at this
    exact (eq_posInf_of_xleb this).symm
  | fin n =>
    have := h.2.2 (by rw [hr]; rfl) (by rw [hr]; rfl)
    rw [← hr, this]

end AI

namespace AI

/-! Scores the search produces stay in the encodable range. -/

/-- Values the search manipulates: one of the two infinities, or an
integer score within `[-10, 10]`. -/
def okv (x : XInt) : Prop :=
  x = .negInf ∨ x = .posInf ∨ ∃ n, x = .fin n ∧ -10 ≤ n ∧ n ≤ 10

theorem okv_negInf : okv .negInf := Or.inl rfl

theorem okv_posInf : okv .posInf := Or.inr (Or.inl rfl)

theorem okv_xmax {a b : XInt} (ha : okv a) (hb : okv b) : okv (xmax a b) := by
  rcases xmax_cases a b with h | h <;> rw [h] <;> assumption

theorem okv_xmin {a b : XInt} (ha : okv a) (hb : okv b) : okv (xmin a b) := by
  rcases xmin_cases a b with h | h <;> rw [h] <;> assumption

theorem maxLoop_okv (rec : Board → XInt → XInt) (b : Board) (beta : XInt)
    (hrec : ∀ b' a', okv (rec b' a')) :
    ∀ (l : List Nat) (best alpha : XInt), okv best →
      okv (maxLoop rec b beta l best alpha) := by
  intro l
  induction l with
  | nil => intro best alpha hb; exact hb
  | cons i rest ih =>
    intro best alpha hb
    show okv (if xleb beta (xmax alpha (rec (b.set i Cell.O) alpha)) = true
      then xmax (rec (b.set i Cell.O) alpha) best
      else maxLoop rec b beta rest (xmax (rec (b.set i Cell.O) alpha) best)
        (xmax alpha (rec (b.set i Cell.O) alpha)))
    by_cases hbr : xleb beta (xmax alpha (rec (b.set i Cell.O) alpha)) = true
    · rw [if_pos hbr]
      exact okv_xmax (hrec _ _) hb
    · rw [if_neg hbr]
      exact ih _ _ (okv_xmax (hrec _ _) hb)

theorem minLoop_okv (rec : Board → XInt → XInt) (b : Board) (alpha : XInt)
    (hrec : ∀ b' a', okv (rec b' a')) :
    ∀ (l : List Nat) (best beta : XInt), okv best →
      okv (minLoop rec b alpha l best beta) := by
  intro l
  induction l with
  | nil => intro best beta hb; exact hb
  | cons i rest ih =>
    intro best beta hb
    show okv (if xleb (xmin beta (rec (b.set i Cell.X) beta)) alpha = true
      then xmin (rec (b.set i Cell.X) beta) best
      else minLoop rec b alpha rest (xmin (rec (b.set i Cell.X) beta) best)
        (xmin beta (rec (b.set i Cell.X) beta)))
    by_cases hbr : xleb (xmin beta (rec (b.set i Cell.X) beta)) alpha = true
    · rw [if_pos hbr]
      exact okv_xmin (hrec _ _) hb
    · rw [if_neg hbr]
      exact ih _ _ (okv_xmin (hrec _ _) hb)

theorem minimax_okv :
    ∀ (fuel : Nat) (b : Board) (d : Nat) (mx : Bool) (alpha beta : XInt),
      d + fuel ≤ 20 → okv (minimax fuel b d mx alpha beta) := by
  intro fuel
  induction fuel with
  | zero =>
    intro b d mx alpha beta hd
    show okv (mmZero b d mx alpha beta)
    unfold mmZero
    cases checkWinner b with
    | none => exact Or.inr (Or.inr ⟨0, rfl, by omega, by omega⟩)
    | some c =>
      cases c with
      | E => exact Or.inr (Or.inr ⟨0, rfl, by omega, by omega⟩)
      | X => exact Or.inr (Or.inr ⟨-10 + d, rfl, by omega, by omega⟩)
      | O => exact Or.inr (Or.inr ⟨10 - d, rfl, by omega, by omega⟩)
  | succ fuel' ih =>
    intro b d mx alpha beta hd
    show okv (mmStep (minimax fuel') b d mx alpha beta)
    unfold mmStep
    cases checkWinner b with
    | none =>
      by_cases hf : isBoardFull b = true
      · simp only [hf, if_true]
        exact Or.inr (Or.inr ⟨0, rfl, by omega, by omega⟩)
      · simp only [hf, Bool.false_eq_true, if_false]
        cases mx with
        | true =>
          simp only [if_true]
          exact maxLoop_okv _ b beta (fun b' a' => ih b' (d + 1) false a' beta (by omega))
            _ _ alpha okv_negInf
        | false =>
          simp only [Bool.false_eq_true, if_false]
          exact minLoop_okv _ b alpha (fun b' bt' => ih b' (d + 1) true alpha bt' (by omega))
            _ _ beta okv_posInf
    | some c =>
      cases c with
      | E =>
        by_cases hf : isBoardFull b = true
        · simp only [hf, if_true]
          exact Or.inr (Or.inr ⟨0, rfl, by omega, by omega⟩)
        · simp only [hf, Bool.false_eq_true, if_false]
          cases mx with
          | true =>
            simp only [if_true]
            exact maxLoop_okv _ b beta (fun b' a' => ih b' (d + 1) false a' beta (by omega))
              _ _ alpha okv_negInf
          | false =>
            simp only [Bool.false_eq_true, if_false]
            exact minLoop_okv _ b alpha (fun b' bt' => ih b' (d + 1) true alpha bt' (by omega))
              _ _ beta okv_posInf
      | X => exact Or.inr (Or.inr ⟨-10 + d, rfl, by omega, by omega⟩)
      | O => exact Or.inr (Or.inr ⟨10 - d, rfl, by omega, by omega⟩)

/-! Root-loop lemmas: the move the root loop returns is one of the listed
cells, its recorded best score is that move's score, and that score is at
least every listed cell's score. -/

theorem maxLoop_fin (rec : Board → XInt → XInt) (b : Board) (beta : XInt)
    (hrec : ∀ b' a', ∃ n, rec b' a' = .fin n) :
    ∀ (l : List Nat) (best alpha : XInt),
      (best = .negInf ∨ ∃ n, best = .fin n) →
      (l ≠ [] ∨ ∃ n, best = .fin n) →
      ∃ n, maxLoop rec b beta l best alpha = .fin n := by
  intro l
  induction l with
  | nil =>
    intro best alpha _ h2
    rcases h2 with h2 | h2
    · exact absurd rfl h2
    · exact h2
  | cons i rest ih =>
    intro best alpha h1 _
    obtain ⟨k, hk⟩ := hrec (b.set i Cell.O) alpha
    have hbest' : ∃ n, xmax (rec (b.set i Cell.O) alpha) best = .fin n := by
      rcases h1 with h1 | ⟨n, h1⟩
      · rw [h1, hk, xmax_negInf]
        exact ⟨k, rfl⟩
      · rw [h1, hk]
        rcases xmax_cases (XInt.fin k) (XInt.fin n) with h | h <;> rw [h] <;>
          [exact ⟨k, rfl⟩; exact ⟨n, rfl⟩]
    show ∃ n, (if xleb beta (xmax alpha (rec (b.set i Cell.O) alpha)) = true
      then xmax (rec (b.set i Cell.O) alpha) best
      else maxLoop rec b beta rest (xmax (rec (b.set i Cell.O) alpha) best)
        (xmax alpha (rec (b.set i Cell.O) alpha))) = .fin n
    by_cases hbr : xleb beta (xmax alpha (rec (b.set i Cell.O) alpha)) = true
    · rw [if_pos hbr]; exact hbest'
    · rw [if_neg hbr]
      exact ih _ _ (Or.inr hbest') (Or.inr hbest')

theorem minLoop_fin (rec : Board → XInt → XInt) (b : Board) (alpha : XInt)
    (hrec : ∀ b' a', ∃ n, rec b' a' = .fin n) :
    ∀ (l : List Nat) (best beta : XInt),
      (best = .posInf ∨ ∃ n, best = .fin n) →
      (l ≠ [] ∨ ∃ n, best = .fin n) →
      ∃ n, minLoop rec b alpha l best beta = .fin n := by
  intro l
  induction l with
  | nil =>
    intro best beta _ h2
    rcases h2 with h2 | h2
    · exact absurd rfl h2
    · exact h2
  | cons i rest ih =>
    intro best beta h1 _
    obtain ⟨k, hk⟩ := hrec (b.set i Cell.X) beta
    have hbest' : ∃ n, xmin (rec (b.set i Cell.X) beta) best = .fin n := by
      rcases h1 with h1 | ⟨n, h1⟩
      · rw [h1, hk, xmin_posInf]
        exact ⟨k, rfl⟩
      · rw [h1, hk]
        rcases xmin_cases (XInt.fin k) (XInt.fin n) with h | h <;> rw [h] <;>
          [exact ⟨k, rfl⟩; exact ⟨n, rfl⟩]
    show ∃ n, (if xleb (xmin beta (rec (b.set i Cell.X) beta)) alpha = true
      then xmin (rec (b.set i Cell.X) beta) best
      else minLoop rec b alpha rest (xmin (rec (b.set i Cell.X) beta) best)
        (xmin beta (rec (b.set i Cell.X) beta))) = .fin n
    by_cases hbr : xleb (xmin beta (rec (b.set i Cell.X) beta)) alpha = true
    · rw [if_pos hbr]; exact hbest'
    · rw [if_neg hbr]
      exact ih _ _ (Or.inr hbest') (Or.inr hbest')

theorem minimax_isFin :
    ∀ (fuel : Nat) (b : Board) (d : Nat) (mx : Bool) (alpha beta : XInt),
      ∃ n, minimax fuel b d mx alpha beta = .fin n := by
  intro fuel
  induction fuel with
  | zero =>
    intro b d mx alpha beta
    show ∃ n, mmZero b d mx alpha beta = .fin n
    unfold mmZero
    cases checkWinner b with
    | none => exact ⟨0, rfl⟩
    | some c => cases c <;> exact ⟨_, rfl⟩
  | succ fuel' ih =>
    intro b d mx alpha beta
    show ∃ n, mmStep (minimax fuel') b d mx alpha beta = .fin n
    unfold mmStep
    cases checkWinner b with
    | none =>
      by_cases hf : isBoardFull b = true
      · simp only [hf, if_true]
        exact ⟨0, rfl⟩
      · simp only [hf, Bool.false_eq_true, if_false]
        have hne : getEmptyCells b ≠ [] := fun hnil =>
          hf (getEmptyCells_nil_iff.mp hnil)
        cases mx with
        | true =>
          simp only [if_true]
          exact maxLoop_fin _ b beta (fun b' a' => ih b' (d + 1) false a' beta)
            _ .negInf alpha (Or.inl rfl) (Or.inl hne)
        | false =>
          simp only [Bool.false_eq_true, if_false]
          exact minLoop_fin _ b alpha (fun b' bt' => ih b' (d + 1) true alpha bt')
            _ .posInf beta (Or.inl rfl) (Or.inl hne)
    | some c =>
      cases c with
      | E =>
        by_cases hf : isBoardFull b = true
        · simp only [hf, if_true]
          exact ⟨0, rfl⟩
        · simp only [hf, Bool.false_eq_true, if_false]
          have hne : getEmptyCells b ≠ [] := fun hnil =>
            hf (getEmptyCells_nil_iff.mp hnil)
          cases mx with
          | true =>
            simp only [if_true]
            exact maxLoop_fin _ b beta (fun b' a' => ih b' (d + 1) false a' beta)
              _ .negInf alpha (Or.inl rfl) (Or.inl hne)
          | false =>
            simp only [Bool.false_eq_true, if_false]
            exact minLoop_fin _ b alpha (fun b' bt' => ih b' (d + 1) true alpha bt')
              _ .posInf beta (Or.inl rfl) (Or.inl hne)
      | X => exact ⟨_, rfl⟩
      | O => exact ⟨_, rfl⟩

/-! Root-loop lemmas for `bestLoop`. -/

theorem bestLoop_inv (b : Board) (P : Nat → Prop) :
    ∀ (l : List Nat) (best : XInt) (mv : Option Nat),
      (∀ j, mv = some j → P j) → (∀ j ∈ l, P j) →
      ∀ j, (bestLoop b l best mv).2 = some j → P j := by
  intro l
  induction l with
  | nil => intro best mv hmv _ j hj; exact hmv j hj
  | cons i rest ih =>
    intro best mv hmv hl j hj
    show P j
    by_cases hc : xltb best (minimax 9 (b.set i Cell.O) 0 false .negInf .posInf) = true
    · have : (bestLoop b (i :: rest) best mv).2 =
        (bestLoop b rest (minimax 9 (b.set i Cell.O) 0 false .negInf .posInf) (some i)).2 := by
        show (if xltb best (minimax 9 (b.set i Cell.O) 0 false .negInf .posInf) = true
          then bestLoop b rest (minimax 9 (b.set i Cell.O) 0 false .negInf .posInf) (some i)
          else bestLoop b rest best mv).2 = _
        rw [if_pos hc]
      rw [this] at hj
      exact ih _ (some i)
        (fun j' hj' => (Option.some.inj hj') ▸ hl i (List.mem_cons_self i rest))
        (fun j' hj' => hl j' (List.mem_cons_of_mem i hj')) j hj
    · have : (bestLoop b (i :: rest) best mv).2 = (bestLoop b rest best mv).2 := by
        show (if xltb best (minimax 9 (b.set i Cell.O) 0 false .negInf .posInf) = true
          then bestLoop b rest (minimax 9 (b.set i Cell.O) 0 false .negInf .posInf) (some i)
          else bestLoop b rest best mv).2 = _
        rw [if_neg hc]
      rw [this] at hj
      exact ih _ mv hmv (fun j' hj' => hl j' (List.mem_cons_of_mem i hj')) j hj

theorem bestLoop_keeps_some (b : Board) :
    ∀ (l : List Nat) (best : XInt) (j0 : Nat),
      (bestLoop b l best (some j0)).2 ≠ none := by
  intro l
  induction l with
  | nil => intro best j0 h; exact Option.noConfusion h
  | cons i rest ih =>
    intro best j0
    show (if xltb best (minimax 9 (b.set i Cell.O) 0 false .negInf .posInf) = true
      then bestLoop b rest (minimax 9 (b.set i Cell.O) 0 false .negInf .posInf) (some i)
      else bestLoop b rest best (some j0)).2 ≠ none
    by_cases hc : xltb best (minimax 9 (b.set i Cell.O) 0 false .negInf .posInf) = true
    · rw [if_pos hc]; exact ih _ i
    · rw [if_neg hc]; exact ih _ j0

theorem bestLoop_cons_some (b : Board) (i : Nat) (rest : List Nat) :
    (bestLoop b (i :: rest) .negInf none).2 ≠ none := by
  obtain ⟨n, hn⟩ := minimax_isFin 9 (b.set i Cell.O) 0 false .negInf .posInf
  show (if xltb .negInf (minimax 9 (b.set i Cell.O) 0 false .negInf .posInf) = true
    then bestLoop b rest (minimax 9 (b.set i Cell.O) 0 false .negInf .posInf) (some i)
    else bestLoop b rest .negInf none).2 ≠ none
  rw [if_pos (by rw [hn]; rfl)]
  exact bestLoop_keeps_some b rest _ i

theorem bestLoop_fst_mono (b : Board) :
    ∀ (l : List Nat) (best : XInt) (mv : Option Nat),
      xleb best (bestLoop b l best mv).1 = true := by
  intro l
  induction l with
  | nil => intro best mv; exact xleb_refl best
  | cons i rest ih =>
    intro best mv
    show xleb best (if xltb best (minimax 9 (b.set i Cell.O) 0 false .negInf .posInf) = true
      then bestLoop b rest (minimax 9 (b.set i Cell.O) 0 false .negInf .posInf) (some i)
      else bestLoop b rest best mv).1 = true
    by_cases hc : xltb best (minimax 9 (b.set i Cell.O) 0 false .negInf .posInf) = true
    · rw [if_pos hc]
      exact xleb_trans (xleb_of_xltb hc) (ih _ (some i))
    · rw [if_neg hc]
      exact ih _ mv

theorem bestLoop_fst_ge (b : Board) :
    ∀ (l : List Nat) (best : XInt) (mv : Option Nat), ∀ j ∈ l,
      xleb (minimax 9 (b.set j Cell.O) 0 false .negInf .posInf)
        (bestLoop b l best mv).1 = true := by
  intro l
  induction l with
  | nil => intro best mv j hj; exact absurd hj (List.not_mem_nil j)
  | cons i rest ih =>
    intro best mv j hj
    show xleb (minimax 9 (b.set j Cell.O) 0 false .negInf .posInf)
      (if xltb best (minimax 9 (b.set i Cell.O) 0 false .negInf .posInf) = true
        then bestLoop b rest (minimax 9 (b.set i Cell.O) 0 false .negInf .posInf) (some i)
        else bestLoop b rest best mv).1 = true
    rcases List.mem_cons.mp hj with hji | hjr
    · subst hji
      by_cases hc : xltb best (minimax 9 (b.set j Cell.O) 0 false .negInf .posInf) = true
      · rw [if_pos hc]
        exact bestLoop_fst_mono b rest _ (some j)
      · rw [if_neg hc]
        exact xleb_trans (xleb_of_not_xltb hc) (bestLoop_fst_mono b rest best mv)
    · by_cases hc : xltb best (minimax 9 (b.set i Cell.O) 0 false .negInf .posInf) = true
      · rw [if_pos hc]
        exact ih _ (some i) j hjr
      · rw [if_neg hc]
        exact ih _ mv j hjr

theorem bestLoop_snd_score (b : Board) :
    ∀ (l : List Nat) (best : XInt) (mv : Option Nat),
      ((mv = none ∧ best = .negInf) ∨
        (∃ j, mv = some j ∧
          best = minimax 9 (b.set j Cell.O) 0 false .negInf .posInf)) →
      ((bestLoop b l best mv).2 = none ∧ (bestLoop b l best mv).1 = .negInf) ∨
        (∃ j, (bestLoop b l best mv).2 = some j ∧ (bestLoop b l best mv).1 =
          minimax 9 (b.set j Cell.O) 0 false .negInf .posInf) := by
  intro l
  induction l with
  | nil => intro best mv h; exact h
  | cons i rest ih =>
    intro best mv h
    have heq : bestLoop b (i :: rest) best mv =
      (if xltb best (minimax 9 (b.set i Cell.O) 0 false .negInf .posInf) = true
       then bestLoop b rest (minimax 9 (b.set i Cell.O) 0 false .negInf .posInf) (some i)
       else bestLoop b rest best mv) := rfl
    rw [heq]
    by_cases hc : xltb best (minimax 9 (b.set i Cell.O) 0 false .negInf .posInf) = true
    · rw [if_pos hc]
      exact ih _ (some i) (Or.inr ⟨i, rfl, rfl⟩)
    · rw [if_neg hc]
      exact ih _ mv h

end AI

namespace AI

/-! Restoration: each state-passing search call hands back exactly the
array it was given — the mutate-and-undo discipline of the source restores
every cell it touches. -/

theorem maxLoopSt_board (rec : Board → XInt → XInt × Board) (beta : XInt)
    (hrec : ∀ b' a', (rec b' a').2 = b') :
    ∀ (l : List Nat) (b : Board) (best alpha : XInt),
      (∀ i ∈ l, cellG b i = Cell.E) →
      (maxLoopSt rec beta l b best alpha).2 = b := by
  intro l
  induction l with
  | nil => intro b best alpha _; rfl
  | cons i rest ih =>
    intro b best alpha hl
    have hb2 : ((rec (b.set i Cell.O) alpha).2).set i Cell.E = b := by
      rw [hrec (b.set i Cell.O) alpha, List.set_set]
      exact set_self_of_cellG_eq b i (hl i (List.mem_cons_self i rest))
    show (if xleb beta (xmax alpha (rec (b.set i Cell.O) alpha).1) = true
      then (xmax (rec (b.set i Cell.O) alpha).1 best,
        ((rec (b.set i Cell.O) alpha).2).set i Cell.E)
      else maxLoopSt rec beta rest (((rec (b.set i Cell.O) alpha).2).set i Cell.E)
        (xmax (rec (b.set i Cell.O) alpha).1 best)
        (xmax alpha (rec (b.set i Cell.O) alpha).1)).2 = b
    by_cases hc : xleb beta (xmax alpha (rec (b.set i Cell.O) alpha).1) = true
    · rw [if_pos hc]
      exact hb2
    · rw [if_neg hc]
      rw [hb2]
      exact ih b _ _ (fun j hj => hl j (List.mem_cons_of_mem i hj))

theorem minLoopSt_board (rec : Board → XInt → XInt × Board) (alpha : XInt)
    (hrec : ∀ b' bt', (rec b' bt').2 = b') :
    ∀ (l : List Nat) (b : Board) (best beta : XInt),
      (∀ i ∈ l, cellG b i = Cell.E) →
      (minLoopSt rec alpha l b best beta).2 = b := by
  intro l
  induction l with
  | nil => intro b best beta _; rfl
  | cons i rest ih =>
    intro b best beta hl
    have hb2 : ((rec (b.set i Cell.X) beta).2).set i Cell.E = b := by
      rw [hrec (b.set i Cell.X) beta, List.set_set]
      exact set_self_of_cellG_eq b i (hl i (List.mem_cons_self i rest))
    show (if xleb (xmin beta (rec (b.set i Cell.X) beta).1) alpha = true
      then (xmin (rec (b.set i Cell.X) beta).1 best,
        ((rec (b.set i Cell.X) beta).2).set i Cell.E)
      else minLoopSt rec alpha rest (((rec (b.set i Cell.X) beta).2).set i Cell.E)
        (xmin (rec (b.set i Cell.X) beta).1 best)
        (xmin beta (rec (b.set i Cell.X) beta).1)).2 = b
    by_cases hc : xleb (xmin beta (rec (b.set i Cell.X) beta).1) alpha = true
    · rw [if_pos hc]
      exact hb2
    · rw [if_neg hc]
      rw [hb2]
      exact ih b _ _ (fun j hj => hl j (List.mem_cons_of_mem i hj))

theorem minimaxSt_board :
    ∀ (fuel : Nat) (b : Board) (d : Nat) (mx : Bool) (alpha beta : XInt),
      (minimaxSt fuel b d mx alpha beta).2 = b := by
  intro fuel
  induction fuel with
  | zero =>
    intro b d mx alpha beta
    show (stZero b d mx alpha beta).2 = b
    unfold stZero
    cases checkWinner b with
    | none => rfl
    | some c => cases c <;> rfl
  | succ fuel' ih =>
    intro b d mx alpha beta
    show (stStep (minimaxSt fuel') b d mx alpha beta).2 = b
    unfold stStep
    cases checkWinner b with
    | none =>
      by_cases hf : isBoardFull b = true
      · simp only [hf, if_true]
      · simp only [hf, Bool.false_eq_true, if_false]
        cases mx with
        | true =>
          simp only [if_true]
          exact maxLoopSt_board _ beta (fun b' a' => ih b' (d + 1) false a' beta)
            _ b .negInf alpha (fun i hi => (mem_getEmptyCells.mp hi).2)
        | false =>
          simp only [Bool.false_eq_true, if_false]
          exact minLoopSt_board _ alpha (fun b' bt' => ih b' (d + 1) true alpha bt')
            _ b .posInf beta (fun i hi => (mem_getEmptyCells.mp hi).2)
    | some c =>
      cases c with
      | E =>
        by_cases hf : isBoardFull b = true
        · simp only [hf, if_true]
        · simp only [hf, Bool.false_eq_true, if_false]
          cases mx with
          | true =>
            simp only [if_true]
            exact maxLoopSt_board _ beta (fun b' a' => ih b' (d + 1) false a' beta)
              _ b .negInf alpha (fun i hi => (mem_getEmptyCells.mp hi).2)
          | false =>
            simp only [Bool.false_eq_true, if_false]
            exact minLoopSt_board _ alpha (fun b' bt' => ih b' (d + 1) true alpha bt')
              _ b .posInf beta (fun i hi => (mem_getEmptyCells.mp hi).2)
      | X => rfl
      | O => rfl

theorem bestLoopSt_board :
    ∀ (l : List Nat) (b : Board) (best : XInt) (mv : Option Nat),
      (∀ i ∈ l, cellG b i = Cell.E) →
      (bestLoopSt l b best mv).2.2 = b := by
  intro l
  induction l with
  | nil => intro b best mv _; rfl
  | cons i rest ih =>
    intro b best mv hl
    have hb2 : ((minimaxSt 9 (b.set i Cell.O) 0 false .negInf .posInf).2).set i Cell.E
        = b := by
      rw [minimaxSt_board 9 (b.set i Cell.O) 0 false .negInf .posInf, List.set_set]
      exact set_self_of_cellG_eq b i (hl i (List.mem_cons_self i rest))
    show (if xltb best (minimaxSt 9 (b.set i Cell.O) 0 false .negInf .posInf).1 = true
      then bestLoopSt rest
        (((minimaxSt 9 (b.set i Cell.O) 0 false .negInf .posInf).2).set i Cell.E)
        (minimaxSt 9 (b.set i Cell.O) 0 false .negInf .posInf).1 (some i)
      else bestLoopSt rest
        (((minimaxSt 9 (b.set i Cell.O) 0 false .negInf .posInf).2).set i Cell.E)
        best mv).2.2 = b
    by_cases hc : xltb best (minimaxSt 9 (b.set i Cell.O) 0 false .negInf .posInf).1 = true
    · rw [if_pos hc, hb2]
      exact ih b _ (some i) (fun j hj => hl j (List.mem_cons_of_mem i hj))
    · rw [if_neg hc, hb2]
      exact ih b best mv (fun j hj => hl j (List.mem_cons_of_mem i hj))

theorem findBestMoveSt_board (r : Nat) (b : Board) :
    (findBestMoveSt r b).2 = b := by
  unfold findBestMoveSt
  by_cases h0 : (getEmptyCells b).length = 0
  · simp [h0]
  · by_cases h9 : (getEmptyCells b).length = 9
    · simp [h0, h9]
    · by_cases h8 : (getEmptyCells b).length = 8 ∧ cellG b 4 ≠ Cell.E
      · simp [h0, h9, h8]
      · simp only [h0, h9, h8, if_false]
        exact bestLoopSt_board (getEmptyCells b) b .negInf none
          (fun i hi => (mem_getEmptyCells.mp hi).2)

end AI

namespace Fast

open AI

/-! Bit-level reading of the masks, tying the fast engine's arithmetic to
the board. -/

/-- Bit `i` of `v`, as the fast code reads it. -/
def bitOf (v i : Nat) : Nat := (v >>> i) % 2

theorem bitOf_eq_one_iff {v i : Nat} : bitOf v i = 1 ↔ Nat.testBit v i = true := by
  unfold bitOf
  rw [Nat.shiftRight_eq_div_pow, Nat.testBit_to_div_mod]
  simp

theorem maskOf_bit {c : Cell} (hc : c ≠ Cell.E) :
    ∀ (b : Board) (i : Nat),
      bitOf (maskOf c b) i = if cellG b i = c then 1 else 0 := by
  intro b
  induction b with
  | nil =>
    intro i
    rw [if_neg (by simp [cellG]; exact fun h => hc h.symm)]
    show (0 >>> i) % 2 = 0
    simp
  | cons hd tl ih =>
    intro i
    cases i with
    | zero =>
      show ((if hd = c then 1 else 0) + 2 * maskOf c tl) >>> 0 % 2 =
        if cellG (hd :: tl) 0 = c then 1 else 0
      simp only [Nat.shiftRight_zero, cellG, List.getD_cons_zero]
      by_cases h : hd = c <;> simp [h] <;> omega
    | succ i' =>
      have hv : ((if hd = c then 1 else 0) + 2 * maskOf c tl) / 2 = maskOf c tl := by
        by_cases h : hd = c <;> simp [h] <;> omega
      show bitOf ((if hd = c then 1 else 0) + 2 * maskOf c tl) (i' + 1) =
        if cellG (hd :: tl) (i' + 1) = c then 1 else 0
      have h1 : bitOf ((if hd = c then 1 else 0) + 2 * maskOf c tl) (i' + 1) =
          bitOf (maskOf c tl) i' := by
        unfold bitOf
        rw [Nat.shiftRight_eq_div_pow, Nat.shiftRight_eq_div_pow, Nat.pow_succ',
          ← Nat.div_div_eq_div_mul, hv]
      rw [h1, ih i']
      simp [cellG]

theorem maskOf_lt : ∀ (c : Cell) (b : Board), maskOf c b < 2 ^ b.length := by
  intro c b
  induction b with
  | nil => exact Nat.zero_lt_one
  | cons hd tl ih =>
    show (if hd = c then 1 else 0) + 2 * maskOf c tl < 2 ^ (tl.length + 1)
    rw [Nat.pow_succ']
    by_cases h : hd = c <;> simp [h] <;> omega

theorem maskOf_set {c : Cell} (hc : c ≠ Cell.E) (c' : Cell) :
    ∀ (b : Board) (i : Nat), i < b.length → cellG b i = Cell.E →
      maskOf c (b.set i c') = maskOf c b + (if c' = c then 2 ^ i else 0) := by
  intro b
  induction b with
  | nil => intro i hi _; exact absurd hi (by simp)
  | cons hd tl ih =>
    intro i hi he
    cases i with
    | zero =>
      have hhd : hd = Cell.E := by simpa [cellG] using he
      subst hhd
      have hE : (if Cell.E = c then (1 : Nat) else 0) = 0 :=
        if_neg (fun heq => hc heq.symm)
      show (if c' = c then 1 else 0) + 2 * maskOf c tl =
        ((if Cell.E = c then 1 else 0) + 2 * maskOf c tl) +
          (if c' = c then 2 ^ 0 else 0)
      rw [hE]
      by_cases h : c' = c <;> simp [h] <;> omega
    | succ i' =>
      have hi' : i' < tl.length := by simpa using hi
      have he' : cellG tl i' = Cell.E := by simpa [cellG] using he
      show (if hd = c then 1 else 0) + 2 * maskOf c (tl.set i' c') =
        ((if hd = c then 1 else 0) + 2 * maskOf c tl) +
          (if c' = c then 2 ^ (i' + 1) else 0)
      rw [ih i' hi' he']
      by_cases h : c' = c <;> simp [h, Nat.pow_succ'] <;> omega

theorem orBit_cell (b : Board) (i : Nat) :
    (bitOf (maskOf Cell.X b ||| maskOf Cell.O b) i = 1) ↔ cellG b i ≠ Cell.E := by
  rw [bitOf_eq_one_iff, Nat.testBit_or, Bool.or_eq_true, ← bitOf_eq_one_iff,
    ← bitOf_eq_one_iff, maskOf_bit (by simp) b i, maskOf_bit (by simp) b i]
  cases hcell : cellG b i <;> simp

/-- The 8 winning lines read off a 9-bit occupation mask. -/
def lineTestN (m : Nat) : Prop :=
  (bitOf m 0 = 1 ∧ bitOf m 1 = 1 ∧ bitOf m 2 = 1) ∨
  (bitOf m 3 = 1 ∧ bitOf m 4 = 1 ∧ bitOf m 5 = 1) ∨
  (bitOf m 6 = 1 ∧ bitOf m 7 = 1 ∧ bitOf m 8 = 1) ∨
  (bitOf m 0 = 1 ∧ bitOf m 3 = 1 ∧ bitOf m 6 = 1) ∨
  (bitOf m 1 = 1 ∧ bitOf m 4 = 1 ∧ bitOf m 7 = 1) ∨
  (bitOf m 2 = 1 ∧ bitOf m 5 = 1 ∧ bitOf m 8 = 1) ∨
  (bitOf m 0 = 1 ∧ bitOf m 4 = 1 ∧ bitOf m 8 = 1) ∨
  (bitOf m 2 = 1 ∧ bitOf m 4 = 1 ∧ bitOf m 6 = 1)

instance lineTestN_dec (m : Nat) : Decidable (lineTestN m) := by
  unfold lineTestN
  infer_instance

set_option maxRecDepth 4096 in
theorem WT_bit_fin : ∀ m : Fin 512, bitOf WT m.val = 1 ↔ lineTestN m.val := by
  decide

theorem WT_bit (m : Nat) (hm : m < 512) : bitOf WT m = 1 ↔ lineTestN m :=
  WT_bit_fin ⟨m, hm⟩

/-- One mark has completed one of the 8 winning triples. -/
def hasLine (b : Board) (c : Cell) : Prop :=
  ∃ combo ∈ WINNING_COMBINATIONS, tripleWin b combo = some c

theorem tripleWin_iff {b : Board} {c : Cell} (hc : c ≠ Cell.E) (x y z : Nat) :
    tripleWin b [x, y, z] = some c ↔
      cellG b x = c ∧ cellG b y = c ∧ cellG b z = c := by
  show (if cellG b x ≠ Cell.E ∧ cellG b x = cellG b y ∧ cellG b x = cellG b z
    then some (cellG b x) else none) = some c ↔ _
  constructor
  · intro h
    by_cases hcond : cellG b x ≠ Cell.E ∧ cellG b x = cellG b y ∧
        cellG b x = cellG b z
    · rw [if_pos hcond] at h
      have hx : cellG b x = c := Option.some.inj h
      exact ⟨hx, hcond.2.1.symm.trans hx, hcond.2.2.symm.trans hx⟩
    · rw [if_neg hcond] at h
      exact Option.noConfusion h
  · rintro ⟨h1, h2, h3⟩
    rw [if_pos ⟨h1 ▸ hc, h1.trans h2.symm, h1.trans h3.symm⟩, h1]

theorem indicator_eq_one {P : Prop} [Decidable P] :
    ((if P then (1 : Nat) else 0) = 1) ↔ P := by
  by_cases h : P <;> simp [h]

theorem hasLine_iff_lineTestN {b : Board} {c : Cell} (hc : c ≠ Cell.E) :
    hasLine b c ↔ lineTestN (maskOf c b) := by
  unfold hasLine WINNING_COMBINATIONS lineTestN
  simp only [List.mem_cons, List.not_mem_nil, or_false, exists_eq_or_imp,
    exists_eq_left, tripleWin_iff hc, maskOf_bit hc, indicator_eq_one]

theorem WTtest_iff {b : Board} {c : Cell} (hc : c ≠ Cell.E)
    (hb : b.length = 9) :
    ((WT >>> maskOf c b) % 2 = 1) ↔ hasLine b c := by
  have hlt : maskOf c b < 512 := by
    have := maskOf_lt c b
    rw [hb] at this
    exact this
  rw [show ((WT >>> maskOf c b) % 2 = 1) ↔ bitOf WT (maskOf c b) = 1 from Iff.rfl,
    WT_bit _ hlt, ← hasLine_iff_lineTestN hc]

/-! Relating `checkWinner` to `hasLine`: on boards where only one mark has
completed lines, the first-match scan reports exactly that mark. -/

/-- At most one of the two marks has a completed line.  Every board the
search can reach from a live position is one-sided: a move adds lines of
the moved mark only. -/
def oneSided (b : Board) : Prop := ¬(hasLine b Cell.X ∧ hasLine b Cell.O)

theorem checkWinner_eq_none_iff {b : Board} :
    AI.checkWinner b = none ↔ ∀ c' ∈ WINNING_COMBINATIONS, tripleWin b c' = none := by
  unfold AI.checkWinner
  rw [Option.map_eq_none']
  exact scanCombos_eq_none_iff

theorem hasLine_ne_none {b : Board} {c : Cell} (h : hasLine b c) :
    AI.checkWinner b ≠ none := by
  intro hn
  rw [checkWinner_eq_none_iff] at hn
  obtain ⟨combo, hc1, hc2⟩ := h
  rw [hn combo hc1] at hc2
  exact Option.noConfusion hc2

theorem checkWinner_some_hasLine {b : Board} {m : Cell}
    (h : AI.checkWinner b = some m) : hasLine b m ∧ m ≠ Cell.E := by
  unfold AI.checkWinner at h
  rw [Option.map_eq_some'] at h
  obtain ⟨⟨m', t⟩, hscan, hfst⟩ := h
  have hm : m' = m := hfst
  subst hm
  obtain ⟨hmem, htw⟩ := scanCombos_eq_some hscan
  exact ⟨⟨t, hmem, htw⟩, (tripleWin_result htw).1⟩

theorem checkWinner_ne_someE {b : Board} : AI.checkWinner b ≠ some Cell.E :=
  fun h => (checkWinner_some_hasLine h).2 rfl

theorem checkWinner_O_of {b : Board} (hos : oneSided b)
    (h : hasLine b Cell.O) : AI.checkWinner b = some Cell.O := by
  cases hcw : AI.checkWinner b with
  | none => exact absurd hcw (hasLine_ne_none h)
  | some m =>
    obtain ⟨hlm, hne⟩ := checkWinner_some_hasLine hcw
    cases m with
    | E => exact absurd rfl hne
    | O => rfl
    | X => exact absurd ⟨hlm, h⟩ hos

theorem checkWinner_X_of {b : Board} (hos : oneSided b)
    (h : hasLine b Cell.X) : AI.checkWinner b = some Cell.X := by
  cases hcw : AI.checkWinner b with
  | none => exact absurd hcw (hasLine_ne_none h)
  | some m =>
    obtain ⟨hlm, hne⟩ := checkWinner_some_hasLine hcw
    cases m with
    | E => exact absurd rfl hne
    | X => rfl
    | O => exact absurd ⟨h, hlm⟩ hos

theorem line_mark_of_set {b : Board} {i : Nat} {c m : Cell}
    (hw : AI.checkWinner b = none) (h : hasLine (b.set i c) m) : m = c := by
  obtain ⟨combo, hmem, htw⟩ := h
  obtain ⟨hne, x, y, z, hcombo, h1, h2, h3⟩ := tripleWin_result htw
  subst hcombo
  by_cases hlen : i < b.length
  · by_cases hix : i = x ∨ i = y ∨ i = z
    · rcases hix with rfl | rfl | rfl
      · rw [cellG_set_eq hlen] at h1; exact h1.symm
      · rw [cellG_set_eq hlen] at h2; exact h2.symm
      · rw [cellG_set_eq hlen] at h3; exact h3.symm
    · push_neg at hix
      rw [cellG_set_ne b hix.1] at h1
      rw [cellG_set_ne b hix.2.1] at h2
      rw [cellG_set_ne b hix.2.2] at h3
      exact absurd hw
        (hasLine_ne_none ⟨[x, y, z], hmem, (tripleWin_iff hne x y z).mpr ⟨h1, h2, h3⟩⟩)
  · rw [List.set_eq_of_length_le (by omega)] at h1 h2 h3
    exact absurd hw
      (hasLine_ne_none ⟨[x, y, z], hmem, (tripleWin_iff hne x y z).mpr ⟨h1, h2, h3⟩⟩)

theorem oneSided_of_checkWinner_none {b : Board} {i : Nat} {c : Cell}
    (hw : AI.checkWinner b = none) : oneSided (b.set i c) := by
  rintro ⟨hx, ho⟩
  have h1 := line_mark_of_set hw hx
  have h2 := line_mark_of_set hw ho
  rw [← h1] at h2
  exact Cell.noConfusion h2

theorem full_iff_forall {b : Board} (hb : b.length = 9) :
    AI.isBoardFull b = true ↔ ∀ i, i < 9 → cellG b i ≠ Cell.E := by
  rw [isBoardFull_iff]
  constructor
  · intro h i hi
    have hi' : i < b.length := by omega
    have : cellG b i = b[i] := by
      unfold cellG
      rw [List.getD_eq_getElem?_getD, List.getElem?_eq_getElem hi']
      rfl
    rw [this]
    exact h _ (List.getElem_mem hi')
  · intro h c hc
    obtain ⟨i, hi, hget⟩ := List.mem_iff_getElem.mp hc
    have : cellG b i = c := by
      unfold cellG
      rw [List.getD_eq_getElem?_getD, List.getElem?_eq_getElem hi]
      simp [hget]
    rw [← this]
    exact h i (by omega)

theorem full511 {b : Board} (hb : b.length = 9) :
    ((maskOf Cell.X b ||| maskOf Cell.O b) = 511) ↔
      AI.isBoardFull b = true := by
  have hxlt : maskOf Cell.X b < 512 := by
    have := maskOf_lt Cell.X b
    rw [hb] at this
    exact this
  have holt : maskOf Cell.O b < 512 := by
    have := maskOf_lt Cell.O b
    rw [hb] at this
    exact this
  have hor : maskOf Cell.X b ||| maskOf Cell.O b < 512 :=
    Nat.or_lt_two_pow (n := 9) hxlt holt
  rw [full_iff_forall hb]
  constructor
  · intro h i hi
    rw [← orBit_cell, h]
    rw [bitOf_eq_one_iff,
      show (511 : Nat) = 2 ^ 9 - 1 from rfl, Nat.testBit_two_pow_sub_one]
    simpa using hi
  · intro h
    apply Nat.eq_of_testBit_eq
    intro j
    rw [show (511 : Nat) = 2 ^ 9 - 1 from rfl, Nat.testBit_two_pow_sub_one]
    by_cases hj : j < 9
    · rw [bitOf_eq_one_iff.mp ((orBit_cell b j).mpr (h j hj))]
      simp [hj]
    · have hle : (512 : Nat) ≤ 2 ^ j := by
        calc (512 : Nat) = 2 ^ 9 := rfl
        _ ≤ 2 ^ j := Nat.pow_le_pow_right (by omega) (by omega)
      rw [Nat.testBit_to_div_mod, Nat.div_eq_of_lt (by omega)]
      simp [hj]

/-! Score-encoding lemmas. -/

theorem bool_eq_of_iff {a b : Bool} (h : a = true ↔ b = true) : a = b := by
  cases a <;> cases b <;> simp_all

theorem xenc_ble {a b : XInt} (ha : okv a) (hb : okv b) :
    Nat.ble (xenc a) (xenc b) = xleb a b := by
  apply bool_eq_of_iff
  rw [Nat.ble_eq]
  rcases ha with rfl | rfl | ⟨n, rfl, hn1, hn2⟩ <;>
    rcases hb with rfl | rfl | ⟨m, rfl, hm1, hm2⟩ <;>
    simp [xenc, xleb] <;> omega

theorem xenc_blt {a b : XInt} (ha : okv a) (hb : okv b) :
    Nat.blt (xenc a) (xenc b) = xltb a b := by
  apply bool_eq_of_iff
  rw [Nat.blt_eq]
  rcases ha with rfl | rfl | ⟨n, rfl, hn1, hn2⟩ <;>
    rcases hb with rfl | rfl | ⟨m, rfl, hm1, hm2⟩ <;>
    simp [xenc, xltb] <;> omega

theorem xenc_nmax {a b : XInt} (ha : okv a) (hb : okv b) :
    nmax (xenc a) (xenc b) = xenc (xmax a b) := by
  unfold nmax xmax
  rw [xenc_ble ha hb]
  by_cases h : xleb a b = true <;> simp [h]

theorem xenc_nmin {a b : XInt} (ha : okv a) (hb : okv b) :
    nmin (xenc a) (xenc b) = xenc (xmin a b) := by
  unfold nmin xmin
  rw [xenc_ble ha hb]
  by_cases h : xleb a b = true <;> simp [h]

theorem xenc_inj {a b : XInt} (ha : okv a) (hb : okv b)
    (h : xenc a = xenc b) : a = b := by
  rcases ha with rfl | rfl | ⟨n, rfl, hn1, hn2⟩ <;>
    rcases hb with rfl | rfl | ⟨m, rfl, hm1, hm2⟩ <;>
    simp [xenc] at h ⊢ <;> omega

/-! Fusing the fast loops with the source loops: iterating over all nine
cells and skipping occupied ones is the same as iterating over
`getEmptyCells`. -/

theorem minimaxB_succ_eq (fuel' : Nat) :
    minimaxB (fuel' + 1) = mmStepB (minimaxB fuel') := rfl

theorem CELLS_filter_empty {b : Board} (hb : b.length = 9) :
    CELLS.filter (fun i => cellG b i == Cell.E) = AI.getEmptyCells b := by
  unfold AI.getEmptyCells
  rw [hb]
  have h : List.range 9 = CELLS := by decide
  rw [h]

theorem maxLoopB_cons (rec : Nat → Nat → Nat → Nat) (xm om beta i : Nat)
    (rest : List Nat) (best alpha : Nat) :
    maxLoopB rec xm om beta (i :: rest) best alpha =
      if ((xm ||| om) >>> i) % 2 = 1 then maxLoopB rec xm om beta rest best alpha
      else if Nat.ble beta (nmax alpha (rec xm (om + 2 ^ i) alpha)) = true then
        nmax (rec xm (om + 2 ^ i) alpha) best
      else maxLoopB rec xm om beta rest (nmax (rec xm (om + 2 ^ i) alpha) best)
        (nmax alpha (rec xm (om + 2 ^ i) alpha)) := rfl

theorem minLoopB_cons (rec : Nat → Nat → Nat → Nat) (xm om alpha i : Nat)
    (rest : List Nat) (best beta : Nat) :
    minLoopB rec xm om alpha (i :: rest) best beta =
      if ((xm ||| om) >>> i) % 2 = 1 then minLoopB rec xm om alpha rest best beta
      else if Nat.ble (nmin beta (rec (xm + 2 ^ i) om beta)) alpha = true then
        nmin (rec (xm + 2 ^ i) om beta) best
      else minLoopB rec xm om alpha rest (nmin (rec (xm + 2 ^ i) om beta) best)
        (nmin beta (rec (xm + 2 ^ i) om beta)) := rfl

theorem maxLoop_cons (rec : Board → XInt → XInt) (b : Board) (beta : XInt)
    (i : Nat) (rest : List Nat) (best alpha : XInt) :
    AI.maxLoop rec b beta (i :: rest) best alpha =
      if xleb beta (xmax alpha (rec (b.set i Cell.O) alpha)) = true then
        xmax (rec (b.set i Cell.O) alpha) best
      else AI.maxLoop rec b beta rest (xmax (rec (b.set i Cell.O) alpha) best)
        (xmax alpha (rec (b.set i Cell.O) alpha)) := rfl

theorem minLoop_cons (rec : Board → XInt → XInt) (b : Board) (alpha : XInt)
    (i : Nat) (rest : List Nat) (best beta : XInt) :
    AI.minLoop rec b alpha (i :: rest) best beta =
      if xleb (xmin beta (rec (b.set i Cell.X) beta)) alpha = true then
        xmin (rec (b.set i Cell.X) beta) best
      else AI.minLoop rec b alpha rest (xmin (rec (b.set i Cell.X) beta) best)
        (xmin beta (rec (b.set i Cell.X) beta)) := rfl

theorem maxLoopB_fuse {b : Board} (recB : Nat → Nat → Nat → Nat)
    (recX : Board → XInt → XInt) {betaX : XInt} (hbeta : okv betaX)
    (hrec : ∀ i, i < 9 → cellG b i = Cell.E → ∀ a', okv a' →
      recB (maskOf Cell.X b) (maskOf Cell.O b + 2 ^ i) (xenc a')
        = xenc (recX (b.set i Cell.O) a'))
    (hokv : ∀ b' a', okv (recX b' a')) :
    ∀ (l : List Nat), (∀ i ∈ l, i < 9) →
      ∀ (best alpha : XInt), okv best → okv alpha →
      maxLoopB recB (maskOf Cell.X b) (maskOf Cell.O b) (xenc betaX) l
          (xenc best) (xenc alpha)
        = xenc (AI.maxLoop recX b betaX
            (l.filter (fun i => cellG b i == Cell.E)) best alpha) := by
  intro l
  induction l with
  | nil => intro _ best alpha _ _; rfl
  | cons i rest ih =>
    intro hl best alpha hbest halpha
    have hi9 : i < 9 := hl i (List.mem_cons_self i rest)
    have hrest : ∀ j ∈ rest, j < 9 := fun j hj => hl j (List.mem_cons_of_mem i hj)
    by_cases he : cellG b i = Cell.E
    · have hbit : ¬ (((maskOf Cell.X b ||| maskOf Cell.O b) >>> i) % 2 = 1) :=
        fun hc => (orBit_cell b i).mp hc he
      have hfl : (i :: rest).filter (fun j => cellG b j == Cell.E)
          = i :: rest.filter (fun j => cellG b j == Cell.E) :=
        List.filter_cons_of_pos (by simp [he])
      have hscore : recB (maskOf Cell.X b) (maskOf Cell.O b + 2 ^ i) (xenc alpha)
          = xenc (recX (b.set i Cell.O) alpha) := hrec i hi9 he alpha halpha
      rw [maxLoopB_cons, if_neg hbit, hfl, maxLoop_cons, hscore,
        xenc_nmax (hokv _ _) hbest, xenc_nmax halpha (hokv _ _),
        xenc_ble hbeta (okv_xmax halpha (hokv _ _))]
      by_cases hbr : xleb betaX (xmax alpha (recX (b.set i Cell.O) alpha)) = true
      · rw [if_pos hbr, if_pos hbr]
      · rw [if_neg hbr, if_neg hbr]
        exact ih hrest _ _ (okv_xmax (hokv _ _) hbest) (okv_xmax halpha (hokv _ _))
    · have hbit : ((maskOf Cell.X b ||| maskOf Cell.O b) >>> i) % 2 = 1 :=
        (orBit_cell b i).mpr he
      have hfl : (i :: rest).filter (fun j => cellG b j == Cell.E)
          = rest.filter (fun j => cellG b j == Cell.E) :=
        List.filter_cons_of_neg (by simp [he])
      rw [maxLoopB_cons, if_pos hbit, hfl]
      exact ih hrest best alpha hbest halpha

theorem minLoopB_fuse {b : Board} (recB : Nat → Nat → Nat → Nat)
    (recX : Board → XInt → XInt) {alphaX : XInt} (halpha : okv alphaX)
    (hrec : ∀ i, i < 9 → cellG b i = Cell.E → ∀ bt', okv bt' →
      recB (maskOf Cell.X b + 2 ^ i) (maskOf Cell.O b) (xenc bt')
        = xenc (recX (b.set i Cell.X) bt'))
    (hokv : ∀ b' bt', okv (recX b' bt')) :
    ∀ (l : List Nat), (∀ i ∈ l, i < 9) →
      ∀ (best beta : XInt), okv best → okv beta →
      minLoopB recB (maskOf Cell.X b) (maskOf Cell.O b) (xenc alphaX) l
          (xenc best) (xenc beta)
        = xenc (AI.minLoop recX b alphaX
            (l.filter (fun i => cellG b i == Cell.E)) best beta) := by
  intro l
  induction l with
  | nil => intro _ best beta _ _; rfl
  | cons i rest ih =>
    intro hl best beta hbest hbeta
    have hi9 : i < 9 := hl i (List.mem_cons_self i rest)
    have hrest : ∀ j ∈ rest, j < 9 := fun j hj => hl j (List.mem_cons_of_mem i hj)
    by_cases he : cellG b i = Cell.E
    · have hbit : ¬ (((maskOf Cell.X b ||| maskOf Cell.O b) >>> i) % 2 = 1) :=
        fun hc => (orBit_cell b i).mp hc he
      have hfl : (i :: rest).filter (fun j => cellG b j == Cell.E)
          = i :: rest.filter (fun j => cellG b j == Cell.E) :=
        List.filter_cons_of_pos (by simp [he])
      have hscore : recB (maskOf Cell.X b + 2 ^ i) (maskOf Cell.O b) (xenc beta)
          = xenc (recX (b.set i Cell.X) beta) := hrec i hi9 he beta hbeta
      rw [minLoopB_cons, if_neg hbit, hfl, minLoop_cons, hscore,
        xenc_nmin (hokv _ _) hbest, xenc_nmin hbeta (hokv _ _),
        xenc_ble (okv_xmin hbeta (hokv _ _)) halpha]
      by_cases hbr : xleb (xmin beta (recX (b.set i Cell.X) beta)) alphaX = true
      · rw [if_pos hbr, if_pos hbr]
      · rw [if_neg hbr, if_neg hbr]
        exact ih hrest _ _ (okv_xmin (hokv _ _) hbest) (okv_xmin hbeta (hokv _ _))
    · have hbit : ((maskOf Cell.X b ||| maskOf Cell.O b) >>> i) % 2 = 1 :=
        (orBit_cell b i).mpr he
      have hfl : (i :: rest).filter (fun j => cellG b j == Cell.E)
          = rest.filter (fun j => cellG b j == Cell.E) :=
        List.filter_cons_of_neg (by simp [he])
      rw [minLoopB_cons, if_pos hbit, hfl]
      exact ih hrest best beta hbest hbeta

/-! Reduction lemmas exposing the branch structure of a search step once
the winner scan's outcome is known. -/

theorem mmZero_O {b : Board} {d : Nat} {mx : Bool} {alpha beta : XInt}
    (hw : AI.checkWinner b = some Cell.O) :
    AI.mmZero b d mx alpha beta = XInt.fin (10 - (d : Int)) := by
  unfold AI.mmZero
  rw [hw]

theorem mmZero_X {b : Board} {d : Nat} {mx : Bool} {alpha beta : XInt}
    (hw : AI.checkWinner b = some Cell.X) :
    AI.mmZero b d mx alpha beta = XInt.fin (-10 + (d : Int)) := by
  unfold AI.mmZero
  rw [hw]

theorem mmZero_none {b : Board} {d : Nat} {mx : Bool} {alpha beta : XInt}
    (hw : AI.checkWinner b = none) :
    AI.mmZero b d mx alpha beta = XInt.fin 0 := by
  unfold AI.mmZero
  rw [hw]

theorem mmStep_O {rec : Board → Nat → Bool → XInt → XInt → XInt} {b : Board}
    {d : Nat} {mx : Bool} {alpha beta : XInt}
    (hw : AI.checkWinner b = some Cell.O) :
    AI.mmStep rec b d mx alpha beta = XInt.fin (10 - (d : Int)) := by
  unfold AI.mmStep
  rw [hw]

theorem mmStep_X {rec : Board → Nat → Bool → XInt → XInt → XInt} {b : Board}
    {d : Nat} {mx : Bool} {alpha beta : XInt}
    (hw : AI.checkWinner b = some Cell.X) :
    AI.mmStep rec b d mx alpha beta = XInt.fin (-10 + (d : Int)) := by
  unfold AI.mmStep
  rw [hw]

theorem mmStep_none {rec : Board → Nat → Bool → XInt → XInt → XInt} {b : Board}
    {d : Nat} {mx : Bool} {alpha beta : XInt}
    (hw : AI.checkWinner b = none) :
    AI.mmStep rec b d mx alpha beta
      = (if AI.isBoardFull b = true then XInt.fin 0
         else if mx = true then
           AI.maxLoop (fun b' a' => rec b' (d + 1) false a' beta) b beta
             (AI.getEmptyCells b) XInt.negInf alpha
         else
           AI.minLoop (fun b' bt' => rec b' (d + 1) true alpha bt') b alpha
             (AI.getEmptyCells b) XInt.posInf beta) := by
  unfold AI.mmStep
  rw [hw]

/-- The fast bitboard search computes the encoding of the source search on
every one-sided 9-cell board, for every fuel the source uses. -/
theorem mmB_correct :
    ∀ (fuel : Nat) (b : Board) (d : Nat) (mx : Bool) (alpha beta : XInt),
      b.length = 9 → oneSided b → d + fuel ≤ 20 → okv alpha → okv beta →
      minimaxB fuel (maskOf Cell.X b) (maskOf Cell.O b) d mx
          (xenc alpha) (xenc beta)
        = xenc (AI.minimax fuel b d mx alpha beta) := by
  intro fuel
  induction fuel with
  | zero =>
    intro b d mx alpha beta hb hos hd _ _
    show mmBaseB (maskOf Cell.X b) (maskOf Cell.O b) d mx (xenc alpha) (xenc beta)
      = xenc (AI.mmZero b d mx alpha beta)
    unfold mmBaseB
    cases hw : AI.checkWinner b with
    | none =>
      have hnO : ¬ ((WT >>> maskOf Cell.O b) % 2 = 1) :=
        fun ht => hasLine_ne_none ((WTtest_iff (by decide) hb).mp ht) hw
      have hnX : ¬ ((WT >>> maskOf Cell.X b) % 2 = 1) :=
        fun ht => hasLine_ne_none ((WTtest_iff (by decide) hb).mp ht) hw
      rw [if_neg hnO, if_neg hnX, mmZero_none hw]
      decide
    | some m =>
      cases m with
      | E => exact absurd hw checkWinner_ne_someE
      | O =>
        have hO : hasLine b Cell.O := (checkWinner_some_hasLine hw).1
        have htO : (WT >>> maskOf Cell.O b) % 2 = 1 :=
          (WTtest_iff (by decide) hb).mpr hO
        rw [if_pos htO, mmZero_O hw]
        simp only [xenc]
        omega
      | X =>
        have hX : hasLine b Cell.X := (checkWinner_some_hasLine hw).1
        have hnO : ¬ ((WT >>> maskOf Cell.O b) % 2 = 1) :=
          fun ht => hos ⟨hX, (WTtest_iff (by decide) hb).mp ht⟩
        have htX : (WT >>> maskOf Cell.X b) % 2 = 1 :=
          (WTtest_iff (by decide) hb).mpr hX
        rw [if_neg hnO, if_pos htX, mmZero_X hw]
        simp only [xenc]
        omega
  | succ fuel' ih =>
    intro b d mx alpha beta hb hos hd halpha hbeta
    rw [minimaxB_succ_eq, minimax_succ_eq]
    show mmStepB (minimaxB fuel') (maskOf Cell.X b) (maskOf Cell.O b) d mx
        (xenc alpha) (xenc beta)
      = xenc (AI.mmStep (AI.minimax fuel') b d mx alpha beta)
    unfold mmStepB
    cases hw : AI.checkWinner b with
    | some m =>
      cases m with
      | E => exact absurd hw checkWinner_ne_someE
      | O =>
        have hO : hasLine b Cell.O := (checkWinner_some_hasLine hw).1
        have htO : (WT >>> maskOf Cell.O b) % 2 = 1 :=
          (WTtest_iff (by decide) hb).mpr hO
        rw [if_pos htO, mmStep_O hw]
        simp only [xenc]
        omega
      | X =>
        have hX : hasLine b Cell.X := (checkWinner_some_hasLine hw).1
        have hnO : ¬ ((WT >>> maskOf Cell.O b) % 2 = 1) :=
          fun ht => hos ⟨hX, (WTtest_iff (by decide) hb).mp ht⟩
        have htX : (WT >>> maskOf Cell.X b) % 2 = 1 :=
          (WTtest_iff (by decide) hb).mpr hX
        rw [if_neg hnO, if_pos htX, mmStep_X hw]
        simp only [xenc]
        omega
    | none =>
      have hnO : ¬ ((WT >>> maskOf Cell.O b) % 2 = 1) :=
        fun ht => hasLine_ne_none ((WTtest_iff (by decide) hb).mp ht) hw
      have hnX : ¬ ((WT >>> maskOf Cell.X b) % 2 = 1) :=
        fun ht => hasLine_ne_none ((WTtest_iff (by decide) hb).mp ht) hw
      rw [if_neg hnO, if_neg hnX, mmStep_none hw]
      by_cases hf : AI.isBoardFull b = true
      · rw [if_pos ((full511 hb).mpr hf), if_pos hf]
        rfl
      · rw [if_neg (fun h511 => hf ((full511 hb).mp h511)), if_neg hf]
        by_cases hmx : mx = true
        · rw [if_pos hmx, if_pos hmx, ← CELLS_filter_empty hb]
          exact maxLoopB_fuse
            (fun xm' om' a' => minimaxB fuel' xm' om' (d + 1) false a' (xenc beta))
            (fun b' a' => AI.minimax fuel' b' (d + 1) false a' beta) hbeta
            (fun i hi he a' ha' => by
              have hmO : maskOf Cell.O (b.set i Cell.O) = maskOf Cell.O b + 2 ^ i := by
                rw [@maskOf_set Cell.O (by decide) Cell.O b i (by rw [hb]; exact hi) he]
                simp
              have hmX : maskOf Cell.X (b.set i Cell.O) = maskOf Cell.X b := by
                rw [@maskOf_set Cell.X (by decide) Cell.O b i (by rw [hb]; exact hi) he]
                simp
              have h := ih (b.set i Cell.O) (d + 1) false a' beta
                (by rw [List.length_set]; exact hb)
                (oneSided_of_checkWinner_none hw) (by omega) ha' hbeta
              rw [hmX, hmO] at h
              exact h)
            (fun b' a' => minimax_okv fuel' b' (d + 1) false a' beta (by omega))
            CELLS (by decide) XInt.negInf alpha okv_negInf halpha
        · rw [if_neg hmx, if_neg hmx, ← CELLS_filter_empty hb]
          exact minLoopB_fuse
            (fun xm' om' bt' => minimaxB fuel' xm' om' (d + 1) true (xenc alpha) bt')
            (fun b' bt' => AI.minimax fuel' b' (d + 1) true alpha bt') halpha
            (fun i hi he bt' hbt' => by
              have hmX : maskOf Cell.X (b.set i Cell.X) = maskOf Cell.X b + 2 ^ i := by
                rw [@maskOf_set Cell.X (by decide) Cell.X b i (by rw [hb]; exact hi) he]
                simp
              have hmO : maskOf Cell.O (b.set i Cell.X) = maskOf Cell.O b := by
                rw [@maskOf_set Cell.O (by decide) Cell.X b i (by rw [hb]; exact hi) he]
                simp
              have h := ih (b.set i Cell.X) (d + 1) true alpha bt'
                (by rw [List.length_set]; exact hb)
                (oneSided_of_checkWinner_none hw) (by omega) halpha hbt'
              rw [hmX, hmO] at h
              exact h)
            (fun b' bt' => minimax_okv fuel' b' (d + 1) true alpha bt' (by omega))
            CELLS (by decide) XInt.posInf beta okv_posInf hbeta

/-- One-sidedness from the two numeric line tests. -/
theorem oneSided_of_tests {b : Board} (hb : b.length = 9)
    (h : ¬((WT >>> maskOf Cell.X b) % 2 = 1 ∧ (WT >>> maskOf Cell.O b) % 2 = 1)) :
    oneSided b :=
  fun hl => h ⟨(WTtest_iff (by decide) hb).mpr hl.1,
    (WTtest_iff (by decide) hb).mpr hl.2⟩

/-- Reading a source search value off one computation of the fast
search. -/
theorem eval_minimax {b : Board} (n : Nat) (hb : b.length = 9)
    (hos : oneSided b) (hn1 : 10 ≤ n) (hn2 : n ≤ 30)
    (hB : minimaxB 9 (maskOf Cell.X b) (maskOf Cell.O b) 0 false 0 1000 = n) :
    AI.minimax 9 b 0 false .negInf .posInf = .fin ((n : Int) - 20) := by
  have h0 : minimaxB 9 (maskOf Cell.X b) (maskOf Cell.O b) 0 false 0 1000
      = xenc (AI.minimax 9 b 0 false .negInf .posInf) :=
    mmB_correct 9 b 0 false .negInf .posInf hb hos (by omega) okv_negInf okv_posInf
  have h1 : xenc (AI.minimax 9 b 0 false .negInf .posInf)
      = xenc (XInt.fin ((n : Int) - 20)) := by
    rw [← h0, hB]
    simp only [xenc]
    omega
  exact xenc_inj (minimax_okv 9 b 0 false .negInf .posInf (by omega))
    (Or.inr (Or.inr ⟨(n : Int) - 20, rfl, by omega, by omega⟩)) h1

end Fast

/-! Relating the draw-forcing predicate to the sign of the search value. -/

namespace AI

theorem xleb_xmax_iff (c a b : XInt) :
    xleb c (xmax a b) = true ↔ (xleb c a = true ∨ xleb c b = true) := by
  unfold xmax
  by_cases h : xleb a b = true
  · rw [if_pos h]
    constructor
    · intro hcb; exact Or.inr hcb
    · rintro (hca | hcb)
      · exact xleb_trans hca h
      · exact hcb
  · rw [if_neg h]
    have hba : xleb b a = true := (xleb_total a b).resolve_left h
    constructor
    · intro hca; exact Or.inl hca
    · rintro (hca | hcb)
      · exact hca
      · exact xleb_trans hcb hba

theorem xleb_xmin_iff (c a b : XInt) :
    xleb c (xmin a b) = true ↔ (xleb c a = true ∧ xleb c b = true) := by
  unfold xmin
  by_cases h : xleb a b = true
  · rw [if_pos h]
    exact ⟨fun hca => ⟨hca, xleb_trans hca h⟩, fun hc => hc.1⟩
  · rw [if_neg h]
    have hba : xleb b a = true := (xleb_total a b).resolve_left h
    exact ⟨fun hcb => ⟨xleb_trans hcb hba, hcb⟩, fun hc => hc.2⟩

theorem le0_npMaxLoop (rec : Board → XInt) (b : Board) :
    ∀ (l : List Nat) (best : XInt),
      xleb (XInt.fin 0) (npMaxLoop rec b l best) = true ↔
        (xleb (XInt.fin 0) best = true ∨
          ∃ i ∈ l, xleb (XInt.fin 0) (rec (b.set i Cell.O)) = true) := by
  intro l
  induction l with
  | nil => intro best; simp [npMaxLoop]
  | cons i rest ih =>
    intro best
    show xleb (XInt.fin 0)
        (npMaxLoop rec b rest (xmax (rec (b.set i Cell.O)) best)) = true ↔ _
    rw [ih, xleb_xmax_iff]
    constructor
    · rintro ((hsi | hb) | ⟨j, hj, hs⟩)
      · exact Or.inr ⟨i, List.mem_cons_self i rest, hsi⟩
      · exact Or.inl hb
      · exact Or.inr ⟨j, List.mem_cons_of_mem i hj, hs⟩
    · rintro (hb | ⟨j, hj, hs⟩)
      · exact Or.inl (Or.inr hb)
      · rcases List.mem_cons.mp hj with rfl | hjr
        · exact Or.inl (Or.inl hs)
        · exact Or.inr ⟨j, hjr, hs⟩

theorem le0_npMinLoop (rec : Board → XInt) (b : Board) :
    ∀ (l : List Nat) (best : XInt),
      xleb (XInt.fin 0) (npMinLoop rec b l best) = true ↔
        (xleb (XInt.fin 0) best = true ∧
          ∀ i ∈ l, xleb (XInt.fin 0) (rec (b.set i Cell.X)) = true) := by
  intro l
  induction l with
  | nil => intro best; simp [npMinLoop]
  | cons i rest ih =>
    intro best
    show xleb (XInt.fin 0)
        (npMinLoop rec b rest (xmin (rec (b.set i Cell.X)) best)) = true ↔ _
    rw [ih, xleb_xmin_iff]
    constructor
    · rintro ⟨⟨hsi, hb⟩, hall⟩
      refine ⟨hb, ?_⟩
      intro j hj
      rcases List.mem_cons.mp hj with rfl | hjr
      · exact hsi
      · exact hall j hjr
    · rintro ⟨hb, hall⟩
      exact ⟨⟨hall i (List.mem_cons_self i rest), hb⟩,
        fun j hj => hall j (List.mem_cons_of_mem i hj)⟩

theorem noLoss_succ_eq (fuel' : Nat) :
    noLoss (fuel' + 1) = nlStep (noLoss fuel') := rfl

/-- The busy (no winner yet) branch of one step of the correspondence. -/
theorem nl_np_busy {fuel' : Nat} {b : Board} {d : Nat} {oTurn : Bool}
    (hd : d + (fuel' + 1) ≤ 9)
    (ih : ∀ (b' : Board) (d' : Nat) (oT' : Bool), d' + fuel' ≤ 9 →
      (noLoss fuel' b' oT' = true ↔
        xleb (XInt.fin 0) (npMinimax fuel' b' d' oT') = true)) :
    ((if isBoardFull b then true
      else if oTurn then
        (getEmptyCells b).any (fun i => noLoss fuel' (b.set i Cell.O) false)
      else
        (getEmptyCells b).all (fun i => noLoss fuel' (b.set i Cell.X) true)) = true
     ↔ xleb (XInt.fin 0)
        (if isBoardFull b then XInt.fin 0
         else if oTurn then
           npMaxLoop (fun b' => npMinimax fuel' b' (d + 1) false) b
             (getEmptyCells b) XInt.negInf
         else
           npMinLoop (fun b' => npMinimax fuel' b' (d + 1) true) b
             (getEmptyCells b) XInt.posInf) = true) := by
  by_cases hf : isBoardFull b = true
  · rw [if_pos hf, if_pos hf]
    simp [xleb]
  · rw [if_neg hf, if_neg hf]
    by_cases ho : oTurn = true
    · rw [if_pos ho, if_pos ho, le0_npMaxLoop]
      simp only [List.any_eq_true]
      constructor
      · rintro ⟨i, hi, hnl⟩
        exact Or.inr ⟨i, hi,
          (ih (b.set i Cell.O) (d + 1) false (by omega)).mp hnl⟩
      · rintro (habs | ⟨i, hi, hs⟩)
        · exact absurd habs (by decide)
        · exact ⟨i, hi, (ih (b.set i Cell.O) (d + 1) false (by omega)).mpr hs⟩
    · rw [if_neg ho, if_neg ho, le0_npMinLoop]
      simp only [List.all_eq_true]
      constructor
      · intro h
        exact ⟨by decide, fun i hi =>
          (ih (b.set i Cell.X) (d + 1) true (by omega)).mp (h i hi)⟩
      · rintro ⟨_, h⟩
        intro i hi
        exact (ih (b.set i Cell.X) (d + 1) true (by omega)).mpr (h i hi)

/-- The draw-forcing predicate holds exactly when the unpruned search value
is at least the draw score, at every depth the game can reach. -/
theorem noLoss_iff_np :
    ∀ (fuel : Nat) (b : Board) (d : Nat) (oTurn : Bool), d + fuel ≤ 9 →
      (noLoss fuel b oTurn = true ↔
        xleb (XInt.fin 0) (npMinimax fuel b d oTurn) = true) := by
  intro fuel
  induction fuel with
  | zero =>
    intro b d oTurn hd
    show nlZero b oTurn = true ↔ xleb (XInt.fin 0) (npZero b d oTurn) = true
    unfold nlZero npZero
    cases hw : checkWinner b with
    | none =>
      show true = true ↔ xleb (XInt.fin 0) (XInt.fin 0) = true
      decide
    | some c =>
      cases c with
      | E =>
        show true = true ↔ xleb (XInt.fin 0) (XInt.fin 0) = true
        decide
      | O =>
        show true = true ↔ xleb (XInt.fin 0) (XInt.fin (10 - (d : Int))) = true
        simp [xleb]
        omega
      | X =>
        show false = true ↔ xleb (XInt.fin 0) (XInt.fin (-10 + (d : Int))) = true
        simp [xleb]
        omega
  | succ fuel' ih =>
    intro b d oTurn hd
    show nlStep (noLoss fuel') b oTurn = true ↔
      xleb (XInt.fin 0) (npStep (npMinimax fuel') b d oTurn) = true
    unfold nlStep npStep
    cases hw : checkWinner b with
    | none => exact nl_np_busy hd ih
    | some c =>
      cases c with
      | E => exact nl_np_busy hd ih
      | O =>
        show true = true ↔ xleb (XInt.fin 0) (XInt.fin (10 - (d : Int))) = true
        simp [xleb]
        omega
      | X =>
        show false = true ↔ xleb (XInt.fin 0) (XInt.fin (-10 + (d : Int))) = true
        simp [xleb]
        omega

/-- O can still force at least a draw after moving at `i` exactly when the
engine's root score for `i` is at least the draw score. -/
theorem noLoss_child_iff (b : Board) (i : Nat) :
    noLoss 9 (b.set i Cell.O) false = true ↔
      xleb (XInt.fin 0)
        (minimax 9 (b.set i Cell.O) 0 false .negInf .posInf) = true := by
  rw [minimax_eq_np]
  exact noLoss_iff_np 9 (b.set i Cell.O) 0 false (by omega)

/-! Branch lemmas for `findBestMove`. -/

theorem findBestMove_nine {r : Nat} {b : Board}
    (h9 : (getEmptyCells b).length = 9) :
    findBestMove r b = some (List.getD [0, 2, 4, 6, 8] (r % 5) 0) := by
  have h0 : ¬ ((getEmptyCells b).length = 0) := by rw [h9]; decide
  show (if (getEmptyCells b).length = 0 then none
    else if (getEmptyCells b).length = 9 then
      some (List.getD [0, 2, 4, 6, 8] (r % 5) 0)
    else if (getEmptyCells b).length = 8 ∧ cellG b 4 ≠ Cell.E then
      some (List.getD [0, 2, 6, 8] (r % 4) 0)
    else (bestLoop b (getEmptyCells b) .negInf none).2) = _
  rw [if_neg h0, if_pos h9]

theorem findBestMove_eight {r : Nat} {b : Board}
    (h8 : (getEmptyCells b).length = 8) (hc : cellG b 4 ≠ Cell.E) :
    findBestMove r b = some (List.getD [0, 2, 6, 8] (r % 4) 0) := by
  have h0 : ¬ ((getEmptyCells b).length = 0) := by rw [h8]; decide
  have h9 : ¬ ((getEmptyCells b).length = 9) := by rw [h8]; decide
  show (if (getEmptyCells b).length = 0 then none
    else if (getEmptyCells b).length = 9 then
      some (List.getD [0, 2, 4, 6, 8] (r % 5) 0)
    else if (getEmptyCells b).length = 8 ∧ cellG b 4 ≠ Cell.E then
      some (List.getD [0, 2, 6, 8] (r % 4) 0)
    else (bestLoop b (getEmptyCells b) .negInf none).2) = _
  rw [if_neg h0, if_neg h9, if_pos ⟨h8, hc⟩]

theorem findBestMove_root {r : Nat} {b : Board}
    (h0 : ¬ ((getEmptyCells b).length = 0))
    (h9 : ¬ ((getEmptyCells b).length = 9))
    (h8 : ¬ ((getEmptyCells b).length = 8 ∧ cellG b 4 ≠ Cell.E)) :
    findBestMove r b = (bestLoop b (getEmptyCells b) .negInf none).2 := by
  show (if (getEmptyCells b).length = 0 then none
    else if (getEmptyCells b).length = 9 then
      some (List.getD [0, 2, 4, 6, 8] (r % 5) 0)
    else if (getEmptyCells b).length = 8 ∧ cellG b 4 ≠ Cell.E then
      some (List.getD [0, 2, 6, 8] (r % 4) 0)
    else (bestLoop b (getEmptyCells b) .negInf none).2) = _
  rw [if_neg h0, if_neg h9, if_neg h8]

end AI

/-! Boards determined by their empty-cell count. -/

theorem cellG_eq_getElem {b : Board} {i : Nat} (h : i < b.length) :
    cellG b i = b[i] := by
  unfold cellG
  rw [List.getD_eq_getElem?_getD, List.getElem?_eq_getElem h]
  rfl

theorem filter_all_of_length {α : Type} (p : α → Bool) :
    ∀ (l : List α), (l.filter p).length = l.length → ∀ a ∈ l, p a = true := by
  intro l
  induction l with
  | nil => intro _ a ha; exact absurd ha (List.not_mem_nil a)
  | cons hd tl ih =>
    intro hlen a ha
    cases hp : p hd with
    | true =>
      rw [List.filter_cons_of_pos hp] at hlen
      simp only [List.length_cons, Nat.add_right_cancel_iff] at hlen
      rcases List.mem_cons.mp ha with rfl | hat
      · exact hp
      · exact ih hlen a hat
    | false =>
      exfalso
      rw [List.filter_cons_of_neg (by simp [hp])] at hlen
      have hle := List.length_filter_le p tl
      simp only [List.length_cons] at hlen
      omega

theorem filter_one_false {α : Type} (p : α → Bool) :
    ∀ (l : List α), (l.filter p).length + 1 = l.length →
      ∀ x ∈ l, p x = false → ∀ y ∈ l, y ≠ x → p y = true := by
  intro l
  induction l with
  | nil => intro _ x hx; exact absurd hx (List.not_mem_nil x)
  | cons hd tl ih =>
    intro hlen x hx hpx y hy hyx
    cases hp : p hd with
    | true =>
      rw [List.filter_cons_of_pos hp] at hlen
      simp only [List.length_cons, Nat.add_right_cancel_iff] at hlen
      have hxt : x ∈ tl := by
        rcases List.mem_cons.mp hx with rfl | hxt
        · rw [hp] at hpx; exact absurd hpx (by decide)
        · exact hxt
      rcases List.mem_cons.mp hy with rfl | hyt
      · exact hp
      · exact ih hlen x hxt hpx y hyt hyx
    | false =>
      rw [List.filter_cons_of_neg (by simp [hp])] at hlen
      simp only [List.length_cons] at hlen
      have hall : ∀ a ∈ tl, p a = true := filter_all_of_length p tl (by omega)
      have hxhd : x = hd := by
        rcases List.mem_cons.mp hx with rfl | hxt
        · rfl
        · rw [hall x hxt] at hpx; exact absurd hpx (by decide)
      rcases List.mem_cons.mp hy with rfl | hyt
      · exact absurd hxhd.symm hyx
      · exact hall y hyt

/-- A 9-cell board on which all nine cells are listed empty is the empty
board. -/
theorem nine_empty_determined {b : Board} (hb : b.length = 9)
    (h9 : (AI.getEmptyCells b).length = 9) :
    b = List.replicate 9 Cell.E := by
  have hall : ∀ a ∈ List.range 9, (fun i => cellG b i == Cell.E) a = true := by
    apply filter_all_of_length
    have : AI.getEmptyCells b = (List.range 9).filter (fun i => cellG b i == Cell.E) := by
      unfold AI.getEmptyCells
      rw [hb]
    rw [← this, h9]
    decide
  apply List.ext_getElem (by rw [hb]; rfl)
  intro i h1 h2
  have hi : i < 9 := by omega
  have hE : cellG b i = Cell.E := by
    have := hall i (List.mem_range.mpr hi)
    simpa using this
  rw [← cellG_eq_getElem h1, hE]
  rw [List.getElem_replicate]

/-- A 9-cell board with eight listed empty cells and an occupied centre is
the empty board with one mark at the centre. -/
theorem eight_empty_determined {b : Board} (hb : b.length = 9)
    (h8 : (AI.getEmptyCells b).length = 8) (hc : cellG b 4 ≠ Cell.E) :
    b = (List.replicate 9 Cell.E).set 4 (cellG b 4) := by
  have hget : AI.getEmptyCells b = (List.range 9).filter (fun i => cellG b i == Cell.E) := by
    unfold AI.getEmptyCells
    rw [hb]
  have hone : ∀ y ∈ List.range 9, y ≠ 4 → (fun i => cellG b i == Cell.E) y = true := by
    apply filter_one_false
    · rw [← hget, h8]
      decide
    · decide
    · simp [hc]
  apply List.ext_getElem (by rw [hb]; simp)
  intro i h1 h2
  have hi : i < 9 := by omega
  by_cases h4 : i = 4
  · subst h4
    rw [← cellG_eq_getElem h1, ← cellG_eq_getElem h2,
      cellG_set_eq (by simp) (cellG b 4)]
  · have hE : cellG b i = Cell.E := by
      have := hone i (List.mem_range.mpr hi) h4
      simpa using this
    rw [← cellG_eq_getElem h1, hE, ← cellG_eq_getElem h2,
      cellG_set_ne _ (fun hh => h4 hh.symm)]
    have : cellG (List.replicate 9 Cell.E) i = Cell.E := by
      unfold cellG
      rw [List.getD_eq_getElem?_getD, List.getElem?_eq_getElem (by simpa using hi)]
      simp only [Option.getD_some, List.getElem_replicate]
    rw [this]

/-! Mark counting under a placement, for the alternation invariant. -/

theorem count_set_E (c' : Cell) :
    ∀ (b : Board) (i : Nat), i < b.length → cellG b i = Cell.E →
      ∀ c : Cell, c ≠ Cell.E →
        (b.set i c').count c = b.count c + (if c' = c then 1 else 0) := by
  intro b
  induction b with
  | nil => intro i hi _; exact absurd hi (by simp)
  | cons hd tl ih =>
    intro i hi he c hc
    cases i with
    | zero =>
      have hhd : hd = Cell.E := by simpa [cellG] using he
      subst hhd
      show (c' :: tl).count c = (Cell.E :: tl).count c + (if c' = c then 1 else 0)
      rw [List.count_cons, List.count_cons]
      have h1 : (Cell.E == c) = false := by simpa using Ne.symm hc
      rw [h1]
      by_cases hcc : c' = c
      · have h2 : (c' == c) = true := by simp [hcc]
        rw [h2, if_pos hcc]
        simp
      · have h2 : (c' == c) = false := by simp [hcc]
        rw [h2, if_neg hcc]
        simp
    | succ i' =>
      have hi' : i' < tl.length := by simpa using hi
      have he' : cellG tl i' = Cell.E := by simpa [cellG] using he
      show (hd :: tl.set i' c').count c = (hd :: tl).count c + _
      rw [List.count_cons, List.count_cons, ih i' hi' he' c hc]
      omega

namespace Game

/-- The alternation invariant of a session: a 9-cell board, mark counts
differing by at most one in X's favour, and — while the game is running —
the side to move determined by the counts. -/
def sessionInv (s : GameState) : Prop :=
  s.board.length = 9 ∧
  (s.board.count Cell.X = s.board.count Cell.O ∨
    s.board.count Cell.X = s.board.count Cell.O + 1) ∧
  (s.gameOver = false →
    (s.currentPlayer = Cell.X ∧ s.board.count Cell.X = s.board.count Cell.O) ∨
    (s.currentPlayer = Cell.O ∧
      s.board.count Cell.X = s.board.count Cell.O + 1))

theorem makeMove_invalid {i : Int} {s : GameState}
    (hv : isValidMove i s = false) : makeMove i s = (false, s) := by
  unfold makeMove
  rw [hv]
  rfl

theorem makeMove_valid {i : Int} {s : GameState}
    (hv : isValidMove i s = true) :
    makeMove i s =
      (if (checkGameEnd (s.board.set i.toNat s.currentPlayer)).ended = true then
        (true, { s with
          board := s.board.set i.toNat s.currentPlayer
          gameOver := true
          winner := (checkGameEnd (s.board.set i.toNat s.currentPlayer)).winner
          winningLine :=
            (checkGameEnd (s.board.set i.toNat s.currentPlayer)).winningLine })
      else (true, { s with
        board := s.board.set i.toNat s.currentPlayer
        currentPlayer := if s.currentPlayer = Cell.X then Cell.O else Cell.X })) := by
  unfold makeMove
  rw [hv]
  rfl

theorem isValidMove_parts {i : Int} {s : GameState}
    (hv : isValidMove i s = true) :
    s.gameOver = false ∧ 0 ≤ i ∧ i < 9 ∧ cellG s.board i.toNat = Cell.E := by
  unfold isValidMove at hv
  simp only [Bool.and_eq_true, Bool.not_eq_eq_eq_not, Bool.not_true,
    decide_eq_true_eq, beq_iff_eq] at hv
  exact ⟨hv.1.1.1, hv.1.1.2, hv.1.2, hv.2⟩

theorem makeMove_inv (i : Int) (s : GameState) (h : sessionInv s) :
    sessionInv (makeMove i s).2 := by
  by_cases hv : isValidMove i s = true
  · obtain ⟨hgo, hi0, hi9, he⟩ := isValidMove_parts hv
    obtain ⟨hlen, _, hturn⟩ := h
    have hlt : i.toNat < s.board.length := by rw [hlen]; omega
    have hcX := count_set_E s.currentPlayer s.board i.toNat hlt he Cell.X (by decide)
    have hcO := count_set_E s.currentPlayer s.board i.toNat hlt he Cell.O (by decide)
    have hL : (s.board.set i.toNat s.currentPlayer).length = 9 := by
      rw [List.length_set]; exact hlen
    rw [makeMove_valid hv]
    rcases hturn hgo with ⟨hp, hcnt⟩ | ⟨hp, hcnt⟩
    · have hXO : (s.board.set i.toNat s.currentPlayer).count Cell.X =
          (s.board.set i.toNat s.currentPlayer).count Cell.O + 1 := by
        rw [hcX, hcO, hp]
        simp
        omega
      have hcp : (if s.currentPlayer = Cell.X then Cell.O else Cell.X) = Cell.O :=
        if_pos hp
      by_cases hend : (checkGameEnd (s.board.set i.toNat s.currentPlayer)).ended = true
      · rw [if_pos hend]
        exact ⟨hL, Or.inr hXO, fun hfalse => Bool.noConfusion hfalse⟩
      · rw [if_neg hend]
        exact ⟨hL, Or.inr hXO, fun _ => Or.inr ⟨hcp, hXO⟩⟩
    · have hXO : (s.board.set i.toNat s.currentPlayer).count Cell.X =
          (s.board.set i.toNat s.currentPlayer).count Cell.O := by
        rw [hcX, hcO, hp]
        simp
        omega
      have hcp : (if s.currentPlayer = Cell.X then Cell.O else Cell.X) = Cell.X :=
        if_neg (by rw [hp]; decide)
      by_cases hend : (checkGameEnd (s.board.set i.toNat s.currentPlayer)).ended = true
      · rw [if_pos hend]
        exact ⟨hL, Or.inl hXO, fun hfalse => Bool.noConfusion hfalse⟩
      · rw [if_neg hend]
        exact ⟨hL, Or.inl hXO, fun _ => Or.inl ⟨hcp, hXO⟩⟩
  · rw [makeMove_invalid (by simpa using hv)]
    exact h

theorem applyMoves_inv (moves : List Int) :
    ∀ s : GameState, sessionInv s → sessionInv (applyMoves moves s) := by
  induction moves with
  | nil => intro s h; exact h
  | cons i rest ih =>
    intro s h
    show sessionInv (applyMoves rest (makeMove i s).2)
    exact ih _ (makeMove_inv i s h)

theorem init_inv (ps : Cell) : sessionInv (init ps) :=
  ⟨rfl, Or.inl rfl, fun _ => Or.inl ⟨rfl, rfl⟩⟩

end Game

namespace AI

/-- The pruned and unpruned root loops agree move for move. -/
theorem bestLoop_eq_np (b : Board) :
    ∀ (l : List Nat) (best : XInt) (mv : Option Nat),
      bestLoop b l best mv = npBestLoop b l best mv := by
  intro l
  induction l with
  | nil => intro best mv; rfl
  | cons i rest ih =>
    intro best mv
    show (if xltb best (minimax 9 (b.set i Cell.O) 0 false .negInf .posInf) = true
      then bestLoop b rest (minimax 9 (b.set i Cell.O) 0 false .negInf .posInf)
        (some i)
      else bestLoop b rest best mv)
      = (if xltb best (npMinimax 9 (b.set i Cell.O) 0 false) = true
      then npBestLoop b rest (npMinimax 9 (b.set i Cell.O) 0 false) (some i)
      else npBestLoop b rest best mv)
    rw [minimax_eq_np]
    by_cases hc : xltb best (npMinimax 9 (b.set i Cell.O) 0 false) = true
    · rw [if_pos hc, if_pos hc, ih]
    · rw [if_neg hc, if_neg hc, ih]

end AI

/-! Concrete root scores, read off the fast engine through the
equivalence theorem. -/

theorem sc_empty_0 :
    AI.minimax 9 ((List.replicate 9 Cell.E).set 0 Cell.O) 0 false .negInf .posInf = .fin (0) := by
  have h := @Fast.eval_minimax ((List.replicate 9 Cell.E).set 0 Cell.O) 20 (by decide)
    (Fast.oneSided_of_tests (by decide) (by decide)) (by decide) (by decide)
    (by decide)
  norm_num at h
  exact h

theorem sc_empty_1 :
    AI.minimax 9 ((List.replicate 9 Cell.E).set 1 Cell.O) 0 false .negInf .posInf = .fin (0) := by
  have h := @Fast.eval_minimax ((List.replicate 9 Cell.E).set 1 Cell.O) 20 (by decide)
    (Fast.oneSided_of_tests (by decide) (by decide)) (by decide) (by decide)
    (by decide)
  norm_num at h
  exact h

theorem sc_empty_2 :
    AI.minimax 9 ((List.replicate 9 Cell.E).set 2 Cell.O) 0 false .negInf .posInf = .fin (0) := by
  have h := @Fast.eval_minimax ((List.replicate 9 Cell.E).set 2 Cell.O) 20 (by decide)
    (Fast.oneSided_of_tests (by decide) (by decide)) (by decide) (by decide)
    (by decide)
  norm_num at h
  exact h

theorem sc_empty_3 :
    AI.minimax 9 ((List.replicate 9 Cell.E).set 3 Cell.O) 0 false .negInf .posInf = .fin (0) := by
  have h := @Fast.eval_minimax ((List.replicate 9 Cell.E).set 3 Cell.O) 20 (by decide)
    (Fast.oneSided_of_tests (by decide) (by decide)) (by decide) (by decide)
    (by decide)
  norm_num at h
  exact h

theorem sc_empty_4 :
    AI.minimax 9 ((List.replicate 9 Cell.E).set 4 Cell.O) 0 false .negInf .posInf = .fin (0) := by
  have h := @Fast.eval_minimax ((List.replicate 9 Cell.E).set 4 Cell.O) 20 (by decide)
    (Fast.oneSided_of_tests (by decide) (by decide)) (by decide) (by decide)
    (by decide)
  norm_num at h
  exact h

theorem sc_empty_5 :
    AI.minimax 9 ((List.replicate 9 Cell.E).set 5 Cell.O) 0 false .negInf .posInf = .fin (0) := by
  have h := @Fast.eval_minimax ((List.replicate 9 Cell.E).set 5 Cell.O) 20 (by decide)
    (Fast.oneSided_of_tests (by decide) (by decide)) (by decide) (by decide)
    (by decide)
  norm_num at h
  exact h

theorem sc_empty_6 :
    AI.minimax 9 ((List.replicate 9 Cell.E).set 6 Cell.O) 0 false .negInf .posInf = .fin (0) := by
  have h := @Fast.eval_minimax ((List.replicate 9 Cell.E).set 6 Cell.O) 20 (by decide)
    (Fast.oneSided_of_tests (by decide) (by decide)) (by decide) (by decide)
    (by decide)
  norm_num at h
  exact h

theorem sc_empty_7 :
    AI.minimax 9 ((List.replicate 9 Cell.E).set 7 Cell.O) 0 false .negInf .posInf = .fin (0) := by
  have h := @Fast.eval_minimax ((List.replicate 9 Cell.E).set 7 Cell.O) 20 (by decide)
    (Fast.oneSided_of_tests (by decide) (by decide)) (by decide) (by decide)
    (by decide)
  norm_num at h
  exact h

theorem sc_empty_8 :
    AI.minimax 9 ((List.replicate 9 Cell.E).set 8 Cell.O) 0 false .negInf .posInf = .fin (0) := by
  have h := @Fast.eval_minimax ((List.replicate 9 Cell.E).set 8 Cell.O) 20 (by decide)
    (Fast.oneSided_of_tests (by decide) (by decide)) (by decide) (by decide)
    (by decide)
  norm_num at h
  exact h

theorem sc_xc_0 :
    AI.minimax 9 (((List.replicate 9 Cell.E).set 4 Cell.X).set 0 Cell.O) 0 false .negInf .posInf = .fin (0) := by
  have h := @Fast.eval_minimax (((List.replicate 9 Cell.E).set 4 Cell.X).set 0 Cell.O) 20 (by decide)
    (Fast.oneSided_of_tests (by decide) (by decide)) (by decide) (by decide)
    (by decide)
  norm_num at h
  exact h

theorem sc_xc_1 :
    AI.minimax 9 (((List.replicate 9 Cell.E).set 4 Cell.X).set 1 Cell.O) 0 false .negInf .posInf = .fin (-5) := by
  have h := @Fast.eval_minimax (((List.replicate 9 Cell.E).set 4 Cell.X).set 1 Cell.O) 15 (by decide)
    (Fast.oneSided_of_tests (by decide) (by decide)) (by decide) (by decide)
    (by decide)
  norm_num at h
  exact h

theorem sc_xc_2 :
    AI.minimax 9 (((List.replicate 9 Cell.E).set 4 Cell.X).set 2 Cell.O) 0 false .negInf .posInf = .fin (0) := by
  have h := @Fast.eval_minimax (((List.replicate 9 Cell.E).set 4 Cell.X).set 2 Cell.O) 20 (by decide)
    (Fast.oneSided_of_tests (by decide) (by decide)) (by decide) (by decide)
    (by decide)
  norm_num at h
  exact h

theorem sc_xc_3 :
    AI.minimax 9 (((List.replicate 9 Cell.E).set 4 Cell.X).set 3 Cell.O) 0 false .negInf .posInf = .fin (-5) := by
  have h := @Fast.eval_minimax (((List.replicate 9 Cell.E).set 4 Cell.X).set 3 Cell.O) 15 (by decide)
    (Fast.oneSided_of_tests (by decide) (by decide)) (by decide) (by decide)
    (by decide)
  norm_num at h
  exact h

theorem sc_xc_5 :
    AI.minimax 9 (((List.replicate 9 Cell.E).set 4 Cell.X).set 5 Cell.O) 0 false .negInf .posInf = .fin (-5) := by
  have h := @Fast.eval_minimax (((List.replicate 9 Cell.E).set 4 Cell.X).set 5 Cell.O) 15 (by decide)
    (Fast.oneSided_of_tests (by decide) (by decide)) (by decide) (by decide)
    (by decide)
  norm_num at h
  exact h

theorem sc_xc_6 :
    AI.minimax 9 (((List.replicate 9 Cell.E).set 4 Cell.X).set 6 Cell.O) 0 false .negInf .posInf = .fin (0) := by
  have h := @Fast.eval_minimax (((List.replicate 9 Cell.E).set 4 Cell.X).set 6 Cell.O) 20 (by decide)
    (Fast.oneSided_of_tests (by decide) (by decide)) (by decide) (by decide)
    (by decide)
  norm_num at h
  exact h

theorem sc_xc_7 :
    AI.minimax 9 (((List.replicate 9 Cell.E).set 4 Cell.X).set 7 Cell.O) 0 false .negInf .posInf = .fin (-5) := by
  have h := @Fast.eval_minimax (((List.replicate 9 Cell.E).set 4 Cell.X).set 7 Cell.O) 15 (by decide)
    (Fast.oneSided_of_tests (by decide) (by decide)) (by decide) (by decide)
    (by decide)
  norm_num at h
  exact h

theorem sc_xc_8 :
    AI.minimax 9 (((List.replicate 9 Cell.E).set 4 Cell.X).set 8 Cell.O) 0 false .negInf .posInf = .fin (0) := by
  have h := @Fast.eval_minimax (((List.replicate 9 Cell.E).set 4 Cell.X).set 8 Cell.O) 20 (by decide)
    (Fast.oneSided_of_tests (by decide) (by decide)) (by decide) (by decide)
    (by decide)
  norm_num at h
  exact h

theorem sc_oc_0 :
    AI.minimax 9 (((List.replicate 9 Cell.E).set 4 Cell.O).set 0 Cell.O) 0 false .negInf .posInf = .fin (6) := by
  have h := @Fast.eval_minimax (((List.replicate 9 Cell.E).set 4 Cell.O).set 0 Cell.O) 26 (by decide)
    (Fast.oneSided_of_tests (by decide) (by decide)) (by decide) (by decide)
    (by decide)
  norm_num at h
  exact h

theorem sc_oc_1 :
    AI.minimax 9 (((List.replicate 9 Cell.E).set 4 Cell.O).set 1 Cell.O) 0 false .negInf .posInf = .fin (6) := by
  have h := @Fast.eval_minimax (((List.replicate 9 Cell.E).set 4 Cell.O).set 1 Cell.O) 26 (by decide)
    (Fast.oneSided_of_tests (by decide) (by decide)) (by decide) (by decide)
    (by decide)
  norm_num at h
  exact h

theorem sc_oc_2 :
    AI.minimax 9 (((List.replicate 9 Cell.E).set 4 Cell.O).set 2 Cell.O) 0 false .negInf .posInf = .fin (6) := by
  have h := @Fast.eval_minimax (((List.replicate 9 Cell.E).set 4 Cell.O).set 2 Cell.O) 26 (by decide)
    (Fast.oneSided_of_tests (by decide) (by decide)) (by decide) (by decide)
    (by decide)
  norm_num at h
  exact h

theorem sc_oc_3 :
    AI.minimax 9 (((List.replicate 9 Cell.E).set 4 Cell.O).set 3 Cell.O) 0 false .negInf .posInf = .fin (6) := by
  have h := @Fast.eval_minimax (((List.replicate 9 Cell.E).set 4 Cell.O).set 3 Cell.O) 26 (by decide)
    (Fast.oneSided_of_tests (by decide) (by decide)) (by decide) (by decide)
    (by decide)
  norm_num at h
  exact h

theorem sc_oc_5 :
    AI.minimax 9 (((List.replicate 9 Cell.E).set 4 Cell.O).set 5 Cell.O) 0 false .negInf .posInf = .fin (6) := by
  have h := @Fast.eval_minimax (((List.replicate 9 Cell.E).set 4 Cell.O).set 5 Cell.O) 26 (by decide)
    (Fast.oneSided_of_tests (by decide) (by decide)) (by decide) (by decide)
    (by decide)
  norm_num at h
  exact h

theorem sc_oc_6 :
    AI.minimax 9 (((List.replicate 9 Cell.E).set 4 Cell.O).set 6 Cell.O) 0 false .negInf .posInf = .fin (6) := by
  have h := @Fast.eval_minimax (((List.replicate 9 Cell.E).set 4 Cell.O).set 6 Cell.O) 26 (by decide)
    (Fast.oneSided_of_tests (by decide) (by decide)) (by decide) (by decide)
    (by decide)
  norm_num at h
  exact h

theorem sc_oc_7 :
    AI.minimax 9 (((List.replicate 9 Cell.E).set 4 Cell.O).set 7 Cell.O) 0 false .negInf .posInf = .fin (6) := by
  have h := @Fast.eval_minimax (((List.replicate 9 Cell.E).set 4 Cell.O).set 7 Cell.O) 26 (by decide)
    (Fast.oneSided_of_tests (by decide) (by decide)) (by decide) (by decide)
    (by decide)
  norm_num at h
  exact h

theorem sc_oc_8 :
    AI.minimax 9 (((List.replicate 9 Cell.E).set 4 Cell.O).set 8 Cell.O) 0 false .negInf .posInf = .fin (6) := by
  have h := @Fast.eval_minimax (((List.replicate 9 Cell.E).set 4 Cell.O).set 8 Cell.O) 26 (by decide)
    (Fast.oneSided_of_tests (by decide) (by decide)) (by decide) (by decide)
    (by decide)
  norm_num at h
  exact h

/-! Remaining support lemmas for the claim theorems. -/

theorem cellG_replicate (i : Nat) : cellG (List.replicate 9 Cell.E) i = Cell.E := by
  unfold cellG
  rcases Nat.lt_or_ge i 9 with h | h
  · rw [List.getD_eq_getElem?_getD, List.getElem?_eq_getElem (by simpa using h)]
    simp only [Option.getD_some, List.getElem_replicate]
  · rw [List.getD_eq_getElem?_getD, List.getElem?_eq_none (by simpa using h)]
    rfl

theorem findRandomMove_spec (r : Nat) (b : Board) :
    (AI.findRandomMove r b = none ↔ AI.getEmptyCells b = [])
    ∧ ∀ m, AI.findRandomMove r b = some m → cellG b m = Cell.E := by
  by_cases h0 : (AI.getEmptyCells b).length = 0
  · have hres : AI.findRandomMove r b = none := by
      show (if (AI.getEmptyCells b).length = 0 then none
        else some ((AI.getEmptyCells b).getD (r % (AI.getEmptyCells b).length) 0))
        = none
      rw [if_pos h0]
    refine ⟨?_, ?_⟩
    · rw [hres]
      exact ⟨fun _ => List.length_eq_zero.mp h0, fun _ => rfl⟩
    · intro m hm'
      rw [hres] at hm'
      exact Option.noConfusion hm'
  · have hres : AI.findRandomMove r b
        = some ((AI.getEmptyCells b).getD (r % (AI.getEmptyCells b).length) 0) := by
      show (if (AI.getEmptyCells b).length = 0 then none
        else some ((AI.getEmptyCells b).getD (r % (AI.getEmptyCells b).length) 0))
        = _
      rw [if_neg h0]
    refine ⟨?_, ?_⟩
    · rw [hres]
      refine ⟨fun h => Option.noConfusion h, fun h => ?_⟩
      exact absurd (by rw [h]; rfl : (AI.getEmptyCells b).length = 0) h0
    · intro m hm'
      rw [hres] at hm'
      have hmem : (AI.getEmptyCells b).getD (r % (AI.getEmptyCells b).length) 0
          ∈ AI.getEmptyCells b := by
        rw [List.getD_eq_getElem?_getD,
          List.getElem?_eq_getElem (Nat.mod_lt _ (by omega))]
        exact List.getElem_mem _
      rw [← Option.some.inj hm']
      exact (mem_getEmptyCells.mp hmem).2

theorem findBestMove_spec (r : Nat) (b : Board) (hb : b.length = 9) :
    (AI.findBestMove r b = none ↔ AI.getEmptyCells b = [])
    ∧ ∀ m, AI.findBestMove r b = some m → cellG b m = Cell.E := by
  by_cases h0 : (AI.getEmptyCells b).length = 0
  · have hres : AI.findBestMove r b = none := by
      show (if (AI.getEmptyCells b).length = 0 then none
        else if (AI.getEmptyCells b).length = 9 then
          some (List.getD [0, 2, 4, 6, 8] (r % 5) 0)
        else if (AI.getEmptyCells b).length = 8 ∧ cellG b 4 ≠ Cell.E then
          some (List.getD [0, 2, 6, 8] (r % 4) 0)
        else (AI.bestLoop b (AI.getEmptyCells b) .negInf none).2) = none
      rw [if_pos h0]
    refine ⟨?_, ?_⟩
    · rw [hres]
      exact ⟨fun _ => List.length_eq_zero.mp h0, fun _ => rfl⟩
    · intro m hm'
      rw [hres] at hm'
      exact Option.noConfusion hm'
  · by_cases h9 : (AI.getEmptyCells b).length = 9
    · have hbE : b = List.replicate 9 Cell.E := nine_empty_determined hb h9
      subst hbE
      rw [AI.findBestMove_nine h9]
      refine ⟨⟨fun h => Option.noConfusion h, fun h => ?_⟩, ?_⟩
      · exact absurd (by rw [h]; rfl : (AI.getEmptyCells (List.replicate 9 Cell.E)).length = 0) h0
      · intro m hm'
        rw [← Option.some.inj hm']
        exact cellG_replicate _
    · by_cases h8 : (AI.getEmptyCells b).length = 8 ∧ cellG b 4 ≠ Cell.E
      · obtain ⟨h8len, h8c⟩ := h8
        rw [AI.findBestMove_eight h8len h8c]
        have hbdet : b = (List.replicate 9 Cell.E).set 4 (cellG b 4) :=
          eight_empty_determined hb h8len h8c
        refine ⟨⟨fun h => Option.noConfusion h, fun h => ?_⟩, ?_⟩
        · exact absurd (by rw [h]; rfl : (AI.getEmptyCells b).length = 0) h0
        · intro m hm'
          have h4 : r % 4 = 0 ∨ r % 4 = 1 ∨ r % 4 = 2 ∨ r % 4 = 3 := by omega
          rcases h4 with h|h|h|h
          · rw [h] at hm'
            have hm1 : (0 : Nat) = m := Option.some.inj hm'
            rw [← hm1, hbdet, cellG_set_ne _ (by decide)]
            exact cellG_replicate _
          · rw [h] at hm'
            have hm1 : (2 : Nat) = m := Option.some.inj hm'
            rw [← hm1, hbdet, cellG_set_ne _ (by decide)]
            exact cellG_replicate _
          · rw [h] at hm'
            have hm1 : (6 : Nat) = m := Option.some.inj hm'
            rw [← hm1, hbdet, cellG_set_ne _ (by decide)]
            exact cellG_replicate _
          · rw [h] at hm'
            have hm1 : (8 : Nat) = m := Option.some.inj hm'
            rw [← hm1, hbdet, cellG_set_ne _ (by decide)]
            exact cellG_replicate _
      · rw [AI.findBestMove_root h0 h9 h8]
        refine ⟨?_, ?_⟩
        · cases hemp : AI.getEmptyCells b with
          | nil => exact absurd (by rw [hemp]; rfl : (AI.getEmptyCells b).length = 0) h0
          | cons i rest =>
            refine ⟨fun h => ?_, fun h => ?_⟩
            · exact absurd h (AI.bestLoop_cons_some b i rest)
            · exact absurd h (List.cons_ne_nil i rest)
        · intro m hm'
          have hmem := AI.bestLoop_inv b (fun j => j ∈ AI.getEmptyCells b)
            (AI.getEmptyCells b) .negInf none
            (fun j hj => Option.noConfusion hj) (fun j hj => hj) m hm'
          exact (mem_getEmptyCells.mp hmem).2

/-! Reduction lemmas for `checkGameEnd` once the scan's outcome is known. -/

theorem checkGameEnd_some {b : Board} {m : Cell} {t : List Nat}
    (hs : scanCombos b WINNING_COMBINATIONS = some (m, t)) :
    Game.checkGameEnd b = ⟨true, some (Game.GWinner.mark m), some t⟩ := by
  unfold Game.checkGameEnd
  rw [hs]

theorem checkGameEnd_none {b : Board}
    (hs : scanCombos b WINNING_COMBINATIONS = none) :
    Game.checkGameEnd b =
      (if b.all (fun cell => cell != Cell.E) then
        ⟨true, some Game.GWinner.draw, none⟩
      else ⟨false, none, none⟩) := by
  unfold Game.checkGameEnd
  rw [hs]

/-- C1: the spec claims the Optimal strategy can force at least a draw from
every reachable position, for either symbol.  As stated this fails — the
engine only computes moves for mark-O, and a reachable position can already
be lost (see the counterexample) — but the true core holds: on a 9-cell
board with a legal mark count, whenever some empty cell still lets mark-O
force at least a draw, the move `findBestMove` returns preserves that
guarantee. -/
theorem C1_optimal_forces_draw (r : Nat) (b : Board) (m : Nat)
    (hb : b.length = 9)
    (hcnt : b.count Cell.X = b.count Cell.O ∨
      b.count Cell.X = b.count Cell.O + 1)
    (hm : AI.findBestMove r b = some m)
    (hex : ∃ i ∈ AI.getEmptyCells b, AI.noLoss 9 (b.set i Cell.O) false = true) :
    AI.noLoss 9 (b.set m Cell.O) false = true := by
  by_cases h0 : (AI.getEmptyCells b).length = 0
  · have hnone : AI.findBestMove r b = none := by
      show (if (AI.getEmptyCells b).length = 0 then none
        else if (AI.getEmptyCells b).length = 9 then
          some (List.getD [0, 2, 4, 6, 8] (r % 5) 0)
        else if (AI.getEmptyCells b).length = 8 ∧ cellG b 4 ≠ Cell.E then
          some (List.getD [0, 2, 6, 8] (r % 4) 0)
        else (AI.bestLoop b (AI.getEmptyCells b) .negInf none).2) = none
      rw [if_pos h0]
    rw [hnone] at hm
    exact Option.noConfusion hm
  by_cases h9 : (AI.getEmptyCells b).length = 9
  · have hbE : b = List.replicate 9 Cell.E := nine_empty_determined hb h9
    subst hbE
    rw [AI.findBestMove_nine h9] at hm
    have h5 : r % 5 = 0 ∨ r % 5 = 1 ∨ r % 5 = 2 ∨ r % 5 = 3 ∨ r % 5 = 4 := by
      omega
    rcases h5 with h|h|h|h|h
    · rw [h] at hm
      have hm1 : (0 : Nat) = m := Option.some.inj hm
      rw [← hm1, AI.noLoss_child_iff, sc_empty_0]
      decide
    · rw [h] at hm
      have hm1 : (2 : Nat) = m := Option.some.inj hm
      rw [← hm1, AI.noLoss_child_iff, sc_empty_2]
      decide
    · rw [h] at hm
      have hm1 : (4 : Nat) = m := Option.some.inj hm
      rw [← hm1, AI.noLoss_child_iff, sc_empty_4]
      decide
    · rw [h] at hm
      have hm1 : (6 : Nat) = m := Option.some.inj hm
      rw [← hm1, AI.noLoss_child_iff, sc_empty_6]
      decide
    · rw [h] at hm
      have hm1 : (8 : Nat) = m := Option.some.inj hm
      rw [← hm1, AI.noLoss_child_iff, sc_empty_8]
      decide
  by_cases h8 : (AI.getEmptyCells b).length = 8 ∧ cellG b 4 ≠ Cell.E
  · obtain ⟨h8len, h8c⟩ := h8
    rw [AI.findBestMove_eight h8len h8c] at hm
    have hbdet : b = (List.replicate 9 Cell.E).set 4 (cellG b 4) :=
      eight_empty_determined hb h8len h8c
    have hcX : cellG b 4 = Cell.X := by
      cases hcell : cellG b 4 with
      | E => exact absurd hcell h8c
      | X => rfl
      | O =>
        exfalso
        rw [hbdet, hcell] at hcnt
        exact absurd hcnt (by decide)
    have h4 : r % 4 = 0 ∨ r % 4 = 1 ∨ r % 4 = 2 ∨ r % 4 = 3 := by omega
    rcases h4 with h|h|h|h
    · rw [h] at hm
      have hm1 : (0 : Nat) = m := Option.some.inj hm
      rw [← hm1, hbdet, hcX, AI.noLoss_child_iff, sc_xc_0]
      decide
    · rw [h] at hm
      have hm1 : (2 : Nat) = m := Option.some.inj hm
      rw [← hm1, hbdet, hcX, AI.noLoss_child_iff, sc_xc_2]
      decide
    · rw [h] at hm
      have hm1 : (6 : Nat) = m := Option.some.inj hm
      rw [← hm1, hbdet, hcX, AI.noLoss_child_iff, sc_xc_6]
      decide
    · rw [h] at hm
      have hm1 : (8 : Nat) = m := Option.some.inj hm
      rw [← hm1, hbdet, hcX, AI.noLoss_child_iff, sc_xc_8]
      decide
  · rw [AI.findBestMove_root h0 h9 h8] at hm
    obtain ⟨i, hi, hnl⟩ := hex
    have hsi : AI.xleb (AI.XInt.fin 0)
        (AI.minimax 9 (b.set i Cell.O) 0 false .negInf .posInf) = true :=
      (AI.noLoss_child_iff b i).mp hnl
    have hge := AI.bestLoop_fst_ge b (AI.getEmptyCells b) .negInf none i hi
    rcases AI.bestLoop_snd_score b (AI.getEmptyCells b) .negInf none
        (Or.inl ⟨rfl, rfl⟩) with ⟨hnone, -⟩ | ⟨j, hsome, hbest⟩
    · rw [hnone] at hm
      exact Option.noConfusion hm
    · rw [hsome] at hm
      have hjm : j = m := Option.some.inj hm
      subst hjm
      rw [hbest] at hge
      rw [AI.noLoss_child_iff]
      exact AI.xleb_trans hsi hge

theorem C1_optimal_forces_draw_witness :
    AI.noLoss 9
      ([Cell.X, Cell.X, Cell.E, Cell.O, Cell.O, Cell.E, Cell.E, Cell.E,
        Cell.E].set 5 Cell.O) false = true :=
  C1_optimal_forces_draw 0
    [Cell.X, Cell.X, Cell.E, Cell.O, Cell.O, Cell.E, Cell.E, Cell.E, Cell.E]
    5 (by decide) (by decide) (by decide) ⟨5, by decide, by decide⟩

/-- A reachable session (moves X0, O5, X1, O6, X4 from a fresh game, the
human holding X) in which it is the engine's turn as mark-O and no move of
mark-O can avoid defeat: the spec's unqualified "can force at least a draw
from any position" fails here. -/
theorem C1_unavoidable_loss_position :
    (Game.applyMoves [0, 5, 1, 6, 4] (Game.init Cell.X)).board
        = [Cell.X, Cell.X, Cell.E, Cell.E, Cell.X, Cell.O, Cell.O, Cell.E,
          Cell.E]
      ∧ (Game.applyMoves [0, 5, 1, 6, 4] (Game.init Cell.X)).gameOver = false
      ∧ (Game.applyMoves [0, 5, 1, 6, 4] (Game.init Cell.X)).currentPlayer
          = Cell.O
      ∧ (Game.applyMoves [0, 5, 1, 6, 4] (Game.init Cell.X)).aiSymbol = Cell.O
      ∧ AI.noLoss 9
          [Cell.X, Cell.X, Cell.E, Cell.E, Cell.X, Cell.O, Cell.O, Cell.E,
            Cell.E] true = false := by
  decide

/-- C2: on the spec's board `[A,A,_,B,B,_,_,_,_]` (A = mark-X at 0 and 1,
B = mark-O at 3 and 4) the spec requires the engine to block at index 2;
the engine instead returns index 5, completing mark-O's own row 3-4-5 — a
winning move, so the premise that blocking is the only saving move is
wrong. -/
theorem C2_engine_takes_win (r : Nat) :
    AI.findBestMove r
      [Cell.X, Cell.X, Cell.E, Cell.O, Cell.O, Cell.E, Cell.E, Cell.E, Cell.E]
      = some 5 := by
  rw [AI.findBestMove_root (by decide) (by decide) (by decide)]
  decide

/-- The concrete run refuting the claim: the engine's choice on the spec's
scenario-2 board is index 5, not the blocking index 2. -/
theorem C2_not_blocking_at_two :
    AI.findBestMove 0
      [Cell.X, Cell.X, Cell.E, Cell.O, Cell.O, Cell.E, Cell.E, Cell.E, Cell.E]
      = some 5 := by
  rw [AI.findBestMove_root (by decide) (by decide) (by decide)]
  decide

/-- C4: `makeMove` succeeds exactly when `isValidMove` held immediately
before, a successful call stores the mark that was to move at the requested
cell, and a failed call returns the failure flag with the session state
completely unchanged. -/
theorem C4_apply_move_legality (s : Game.GameState) (i : Int)
    (hb : s.board.length = 9) :
    ((Game.makeMove i s).1 = Game.isValidMove i s)
    ∧ (Game.isValidMove i s = true →
        cellG (Game.makeMove i s).2.board i.toNat = s.currentPlayer)
    ∧ (Game.isValidMove i s = false → Game.makeMove i s = (false, s)) := by
  by_cases hv : Game.isValidMove i s = true
  · obtain ⟨hgo, hi0, hi9, he⟩ := Game.isValidMove_parts hv
    have hlt : i.toNat < s.board.length := by rw [hb]; omega
    refine ⟨?_, ?_, ?_⟩
    · rw [hv, Game.makeMove_valid hv]
      by_cases hend :
          (Game.checkGameEnd (s.board.set i.toNat s.currentPlayer)).ended = true
      · rw [if_pos hend]
      · rw [if_neg hend]
    · intro _
      rw [Game.makeMove_valid hv]
      by_cases hend :
          (Game.checkGameEnd (s.board.set i.toNat s.currentPlayer)).ended = true
      · rw [if_pos hend]
        show cellG (s.board.set i.toNat s.currentPlayer) i.toNat = s.currentPlayer
        exact cellG_set_eq hlt s.currentPlayer
      · rw [if_neg hend]
        show cellG (s.board.set i.toNat s.currentPlayer) i.toNat = s.currentPlayer
        exact cellG_set_eq hlt s.currentPlayer
    · intro hvf
      rw [hv] at hvf
      exact Bool.noConfusion hvf
  · have hvf : Game.isValidMove i s = false := by simpa using hv
    refine ⟨?_, ?_, ?_⟩
    · rw [hvf, Game.makeMove_invalid hvf]
    · intro ht
      rw [hvf] at ht
      exact Bool.noConfusion ht
    · intro _
      exact Game.makeMove_invalid hvf

theorem C4_apply_move_legality_witness :
    ((Game.makeMove 0 (Game.init Cell.X)).1
        = Game.isValidMove 0 (Game.init Cell.X))
    ∧ (Game.isValidMove 0 (Game.init Cell.X) = true →
        cellG (Game.makeMove 0 (Game.init Cell.X)).2.board (Int.toNat 0)
          = (Game.init Cell.X).currentPlayer)
    ∧ (Game.isValidMove 0 (Game.init Cell.X) = false →
        Game.makeMove 0 (Game.init Cell.X) = (false, Game.init Cell.X)) :=
  C4_apply_move_legality (Game.init Cell.X) 0 (by decide)

/-- C5: `checkGameEnd` reports a win for mark `m` with triple `t` exactly
when `t` is the first combination in the fixed scan order whose three cells
are non-empty and equal (its mark being `m`); with no matching triple it
reports a draw on a full board and game-on otherwise, in both cases with no
winning triple. -/
theorem C5_terminal_check (b : Board) :
    (∀ (m : Cell) (t : List Nat),
      Game.checkGameEnd b = ⟨true, some (Game.GWinner.mark m), some t⟩ ↔
        ∃ k, ∃ h : k < WINNING_COMBINATIONS.length,
          t = WINNING_COMBINATIONS.get ⟨k, h⟩ ∧ tripleWin b t = some m ∧
          ∀ c' ∈ WINNING_COMBINATIONS.take k, tripleWin b c' = none)
    ∧ ((∀ c' ∈ WINNING_COMBINATIONS, tripleWin b c' = none) →
        ((∀ c ∈ b, c ≠ Cell.E) →
          Game.checkGameEnd b = ⟨true, some Game.GWinner.draw, none⟩)
        ∧ (¬(∀ c ∈ b, c ≠ Cell.E) →
          Game.checkGameEnd b = ⟨false, none, none⟩)) := by
  constructor
  · intro m t
    constructor
    · intro hg
      cases hs : scanCombos b WINNING_COMBINATIONS with
      | some p =>
        obtain ⟨m', t'⟩ := p
        rw [checkGameEnd_some hs] at hg
        rw [Game.GEnd.mk.injEq] at hg
        simp only [Option.some.injEq, Game.GWinner.mark.injEq, true_and] at hg
        obtain ⟨hm', ht'⟩ := hg
        subst hm'
        subst ht'
        exact scanCombos_eq_some_iff.mp hs
      | none =>
        rw [checkGameEnd_none hs] at hg
        by_cases hf : b.all (fun cell => cell != Cell.E) = true
        · rw [if_pos hf] at hg
          rw [Game.GEnd.mk.injEq] at hg
          simp at hg
        · rw [if_neg hf] at hg
          rw [Game.GEnd.mk.injEq] at hg
          simp at hg
    · intro hex
      exact checkGameEnd_some (scanCombos_eq_some_iff.mpr hex)
  · intro hnone
    have hs : scanCombos b WINNING_COMBINATIONS = none :=
      scanCombos_eq_none_iff.mpr hnone
    constructor
    · intro hfull
      have hA : b.all (fun cell => cell != Cell.E) = true :=
        isBoardFull_iff.mpr hfull
      rw [checkGameEnd_none hs, if_pos hA]
    · intro hnf
      have hA : ¬ (b.all (fun cell => cell != Cell.E) = true) :=
        fun hA => hnf (isBoardFull_iff.mp hA)
      rw [checkGameEnd_none hs, if_neg hA]

/-- C6: alpha-beta pruning is behaviour-preserving at the root — for every
board and random pick, `findBestMove` driven by the pruned search returns
exactly the move the unpruned full search would return, tie-breaking
included. -/
theorem C6_pruning_preserves_choice (r : Nat) (b : Board) :
    AI.findBestMove r b = AI.findBestMoveNP r b := by
  show (if (AI.getEmptyCells b).length = 0 then none
    else if (AI.getEmptyCells b).length = 9 then
      some (List.getD [0, 2, 4, 6, 8] (r % 5) 0)
    else if (AI.getEmptyCells b).length = 8 ∧ cellG b 4 ≠ Cell.E then
      some (List.getD [0, 2, 6, 8] (r % 4) 0)
    else (AI.bestLoop b (AI.getEmptyCells b) .negInf none).2)
    = (if (AI.getEmptyCells b).length = 0 then none
    else if (AI.getEmptyCells b).length = 9 then
      some (List.getD [0, 2, 4, 6, 8] (r % 5) 0)
    else if (AI.getEmptyCells b).length = 8 ∧ cellG b 4 ≠ Cell.E then
      some (List.getD [0, 2, 6, 8] (r % 4) 0)
    else (AI.npBestLoop b (AI.getEmptyCells b) .negInf none).2)
  rw [AI.bestLoop_eq_np]

/-- C7: for either strategy the move chooser returns the null sentinel
exactly when the board has no empty cell, and any index it does return is
an empty cell of the input board. -/
theorem C7_sentinel_none (r : Nat) (b : Board) (difficulty : String)
    (hb : b.length = 9) :
    (AI.getMoveWithDifficultyAndDelay r b difficulty = none ↔
      AI.getEmptyCells b = [])
    ∧ ∀ m, AI.getMoveWithDifficultyAndDelay r b difficulty = some m →
      cellG b m = Cell.E := by
  unfold AI.getMoveWithDifficultyAndDelay
  by_cases hd : difficulty = "easy"
  · rw [if_pos hd]
    exact findRandomMove_spec r b
  · rw [if_neg hd]
    exact findBestMove_spec r b hb

theorem C7_sentinel_none_witness :
    (AI.getMoveWithDifficultyAndDelay 0 (List.replicate 9 Cell.E) "hard" = none ↔
      AI.getEmptyCells (List.replicate 9 Cell.E) = [])
    ∧ ∀ m, AI.getMoveWithDifficultyAndDelay 0 (List.replicate 9 Cell.E) "hard"
        = some m → cellG (List.replicate 9 Cell.E) m = Cell.E :=
  C7_sentinel_none 0 (List.replicate 9 Cell.E) "hard" (by decide)

/-- C8: over every sequence of move requests on a fresh session the placed
marks strictly alternate starting with mark-X: the board's X count always
equals the O count or exceeds it by exactly one, and while the game is
running the side to move is X exactly on equal counts. -/
theorem C8_alternation_invariant (moves : List Int) (ps : Cell) :
    ((Game.applyMoves moves (Game.init ps)).board.count Cell.X
        = (Game.applyMoves moves (Game.init ps)).board.count Cell.O ∨
      (Game.applyMoves moves (Game.init ps)).board.count Cell.X
        = (Game.applyMoves moves (Game.init ps)).board.count Cell.O + 1)
    ∧ ((Game.applyMoves moves (Game.init ps)).gameOver = false →
      ((Game.applyMoves moves (Game.init ps)).currentPlayer = Cell.X ∧
        (Game.applyMoves moves (Game.init ps)).board.count Cell.X
          = (Game.applyMoves moves (Game.init ps)).board.count Cell.O) ∨
      ((Game.applyMoves moves (Game.init ps)).currentPlayer = Cell.O ∧
        (Game.applyMoves moves (Game.init ps)).board.count Cell.X
          = (Game.applyMoves moves (Game.init ps)).board.count Cell.O + 1)) := by
  have h := Game.applyMoves_inv moves (Game.init ps) (Game.init_inv ps)
  exact ⟨h.2.1, h.2.2⟩

/-- C9: the decision engine never mutates the board it is handed — in the
state-passing rendering of the source's mutate-and-undo search, both
`findBestMove` and every `minimax` call return the board exactly as they
received it. -/
theorem C9_engine_preserves_board (r : Nat) (b : Board) (fuel d : Nat)
    (mx : Bool) (a bt : AI.XInt) :
    (AI.findBestMoveSt r b).2 = b ∧ (AI.minimaxSt fuel b d mx a bt).2 = b :=
  ⟨AI.findBestMoveSt_board r b, AI.minimaxSt_board fuel b d mx a bt⟩

/-- C10: the opening shortcuts return only centre/corner cells — an index
in 0,2,4,6,8 on the fully empty board and a corner when eight cells are
empty with the centre taken — and in both cases the returned cell's
full-window search score is the maximum over all empty cells. -/
theorem C10_opening_shortcuts (r : Nat) (b : Board) (m : Nat)
    (hb : b.length = 9) (hm : AI.findBestMove r b = some m) :
    ((AI.getEmptyCells b).length = 9 →
      m ∈ [0, 2, 4, 6, 8] ∧ m ∈ AI.getEmptyCells b ∧
        ∀ j ∈ AI.getEmptyCells b,
          AI.xleb (AI.minimax 9 (b.set j Cell.O) 0 false .negInf .posInf)
            (AI.minimax 9 (b.set m Cell.O) 0 false .negInf .posInf) = true)
    ∧ ((AI.getEmptyCells b).length = 8 → cellG b 4 ≠ Cell.E →
      m ∈ [0, 2, 6, 8] ∧ m ∈ AI.getEmptyCells b ∧
        ∀ j ∈ AI.getEmptyCells b,
          AI.xleb (AI.minimax 9 (b.set j Cell.O) 0 false .negInf .posInf)
            (AI.minimax 9 (b.set m Cell.O) 0 false .negInf .posInf) = true) := by
  constructor
  · intro h9
    have hbE : b = List.replicate 9 Cell.E := nine_empty_determined hb h9
    subst hbE
    rw [AI.findBestMove_nine h9] at hm
    have hemp : AI.getEmptyCells (List.replicate 9 Cell.E)
        = [0, 1, 2, 3, 4, 5, 6, 7, 8] := by decide
    have h5 : r % 5 = 0 ∨ r % 5 = 1 ∨ r % 5 = 2 ∨ r % 5 = 3 ∨ r % 5 = 4 := by
      omega
    rcases h5 with h|h|h|h|h <;> rw [h] at hm
    · have hm1 : (0 : Nat) = m := Option.some.inj hm
      subst hm1
      refine ⟨by decide, by decide, ?_⟩
      intro j hj
      rw [hemp] at hj
      fin_cases hj <;>
        simp only [sc_empty_0, sc_empty_1, sc_empty_2, sc_empty_3, sc_empty_4,
          sc_empty_5, sc_empty_6, sc_empty_7, sc_empty_8] <;> decide
    · have hm1 : (2 : Nat) = m := Option.some.inj hm
      subst hm1
      refine ⟨by decide, by decide, ?_⟩
      intro j hj
      rw [hemp] at hj
      fin_cases hj <;>
        simp only [sc_empty_0, sc_empty_1, sc_empty_2, sc_empty_3, sc_empty_4,
          sc_empty_5, sc_empty_6, sc_empty_7, sc_empty_8] <;> decide
    · have hm1 : (4 : Nat) = m := Option.some.inj hm
      subst hm1
      refine ⟨by decide, by decide, ?_⟩
      intro j hj
      rw [hemp] at hj
      fin_cases hj <;>
        simp only [sc_empty_0, sc_empty_1, sc_empty_2, sc_empty_3, sc_empty_4,
          sc_empty_5, sc_empty_6, sc_empty_7, sc_empty_8] <;> decide
    · have hm1 : (6 : Nat) = m := Option.some.inj hm
      subst hm1
      refine ⟨by decide, by decide, ?_⟩
      intro j hj
      rw [hemp] at hj
      fin_cases hj <;>
        simp only [sc_empty_0, sc_empty_1, sc_empty_2, sc_empty_3, sc_empty_4,
          sc_empty_5, sc_empty_6, sc_empty_7, sc_empty_8] <;> decide
    · have hm1 : (8 : Nat) = m := Option.some.inj hm
      subst hm1
      refine ⟨by decide, by decide, ?_⟩
      intro j hj
      rw [hemp] at hj
      fin_cases hj <;>
        simp only [sc_empty_0, sc_empty_1, sc_empty_2, sc_empty_3, sc_empty_4,
          sc_empty_5, sc_empty_6, sc_empty_7, sc_empty_8] <;> decide
  · intro h8len h8c
    rw [AI.findBestMove_eight h8len h8c] at hm
    have hbdet : b = (List.replicate 9 Cell.E).set 4 (cellG b 4) :=
      eight_empty_determined hb h8len h8c
    have h4 : r % 4 = 0 ∨ r % 4 = 1 ∨ r % 4 = 2 ∨ r % 4 = 3 := by omega
    cases hcell : cellG b 4 with
    | E => exact absurd hcell h8c
    | X =>
      rw [hcell] at hbdet
      subst hbdet
      have hemp : AI.getEmptyCells ((List.replicate 9 Cell.E).set 4 Cell.X)
          = [0, 1, 2, 3, 5, 6, 7, 8] := by decide
      rcases h4 with h|h|h|h <;> rw [h] at hm
      · have hm1 : (0 : Nat) = m := Option.some.inj hm
        subst hm1
        refine ⟨by decide, by decide, ?_⟩
        intro j hj
        rw [hemp] at hj
        fin_cases hj <;>
          simp only [sc_xc_0, sc_xc_1, sc_xc_2, sc_xc_3, sc_xc_5, sc_xc_6,
            sc_xc_7, sc_xc_8] <;> decide
      · have hm1 : (2 : Nat) = m := Option.some.inj hm
        subst hm1
        refine ⟨by decide, by decide, ?_⟩
        intro j hj
        rw [hemp] at hj
        fin_cases hj <;>
          simp only [sc_xc_0, sc_xc_1, sc_xc_2, sc_xc_3, sc_xc_5, sc_xc_6,
            sc_xc_7, sc_xc_8] <;> decide
      · have hm1 : (6 : Nat) = m := Option.some.inj hm
        subst hm1
        refine ⟨by decide, by decide, ?_⟩
        intro j hj
        rw [hemp] at hj
        fin_cases hj <;>
          simp only [sc_xc_0, sc_xc_1, sc_xc_2, sc_xc_3, sc_xc_5, sc_xc_6,
            sc_xc_7, sc_xc_8] <;> decide
      · have hm1 : (8 : Nat) = m := Option.some.inj hm
        subst hm1
        refine ⟨by decide, by decide, ?_⟩
        intro j hj
        rw [hemp] at hj
        fin_cases hj <;>
          simp only [sc_xc_0, sc_xc_1, sc_xc_2, sc_xc_3, sc_xc_5, sc_xc_6,
            sc_xc_7, sc_xc_8] <;> decide
    | O =>
      rw [hcell] at hbdet
      subst hbdet
      have hemp : AI.getEmptyCells ((List.replicate 9 Cell.E).set 4 Cell.O)
          = [0, 1, 2, 3, 5, 6, 7, 8] := by decide
      rcases h4 with h|h|h|h <;> rw [h] at hm
      · have hm1 : (0 : Nat) = m := Option.some.inj hm
        subst hm1
        refine ⟨by decide, by decide, ?_⟩
        intro j hj
        rw [hemp] at hj
        fin_cases hj <;>
          simp only [sc_oc_0, sc_oc_1, sc_oc_2, sc_oc_3, sc_oc_5, sc_oc_6,
            sc_oc_7, sc_oc_8] <;> decide
      · have hm1 : (2 : Nat) = m := Option.some.inj hm
        subst hm1
        refine ⟨by decide, by decide, ?_⟩
        intro j hj
        rw [hemp] at hj
        fin_cases hj <;>
          simp only [sc_oc_0, sc_oc_1, sc_oc_2, sc_oc_3, sc_oc_5, sc_oc_6,
            sc_oc_7, sc_oc_8] <;> decide
      · have hm1 : (6 : Nat) = m := Option.some.inj hm
        subst hm1
        refine ⟨by decide, by decide, ?_⟩
        intro j hj
        rw [hemp] at hj
        fin_cases hj <;>
          simp only [sc_oc_0, sc_oc_1, sc_oc_2, sc_oc_3, sc_oc_5, sc_oc_6,
            sc_oc_7, sc_oc_8] <;> decide
      · have hm1 : (8 : Nat) = m := Option.some.inj hm
        subst hm1
        refine ⟨by decide, by decide, ?_⟩
        intro j hj
        rw [hemp] at hj
        fin_cases hj <;>
          simp only [sc_oc_0, sc_oc_1, sc_oc_2, sc_oc_3, sc_oc_5, sc_oc_6,
            sc_oc_7, sc_oc_8] <;> decide

theorem C10_opening_shortcuts_witness :
    ((AI.getEmptyCells (List.replicate 9 Cell.E)).length = 9 →
      (0 : Nat) ∈ [0, 2, 4, 6, 8] ∧
        (0 : Nat) ∈ AI.getEmptyCells (List.replicate 9 Cell.E) ∧
        ∀ j ∈ AI.getEmptyCells (List.replicate 9 Cell.E),
          AI.xleb
            (AI.minimax 9 ((List.replicate 9 Cell.E).set j Cell.O) 0 false
              .negInf .posInf)
            (AI.minimax 9 ((List.replicate 9 Cell.E).set 0 Cell.O) 0 false
              .negInf .posInf) = true)
    ∧ ((AI.getEmptyCells (List.replicate 9 Cell.E)).length = 8 →
      cellG (List.replicate 9 Cell.E) 4 ≠ Cell.E →
      (0 : Nat) ∈ [0, 2, 6, 8] ∧
        (0 : Nat) ∈ AI.getEmptyCells (List.replicate 9 Cell.E) ∧
        ∀ j ∈ AI.getEmptyCells (List.replicate 9 Cell.E),
          AI.xleb
            (AI.minimax 9 ((List.replicate 9 Cell.E).set j Cell.O) 0 false
              .negInf .posInf)
            (AI.minimax 9 ((List.replicate 9 Cell.E).set 0 Cell.O) 0 false
              .negInf .posInf) = true) :=
  C10_opening_shortcuts 0 (List.replicate 9 Cell.E) 0 (by decide) (by decide)
